import Mathlib

/-!
Verification of `kgr::filesystem`, the directory utilities of the kangaroo library
(`src/common/kgr_filesystem.cpp`).

The file is a shallow embedding of the source functions and of the part of the
operating system they talk to, followed by the theorems about them.

* Path strings are lists of characters (`Str`); the `std::string` operations the code
  uses (`rfind`, `substr(0, pos)`, `+`) are list operations.
* The file system is a finite table of entries keyed by the literal path string.  The
  model does no path normalisation: two paths denote the same object exactly when
  the strings are equal.  A path without separator names an entry of the working
  directory, which always exists.  `opendir` succeeds on every existing directory.
* Native calls (`opendir`, `readdir`, `mkdir`, `rmdir`, `remove`, `FindFirstFile`, ...)
  are total functions on that table.  A native removal can fail: an entry may be
  `locked`, and a directory that still has entries cannot be removed.  A scan
  delivers `.` and `..` first and then the entries in table order.
* Where a `DIR *` is a local variable (`remove_directory_recurse`, `create_directory`,
  `path_is_exists`) the stream is kept as a value, the list of its records, and
  `closedir` has no effect; where the handle is a member of `DirectoryIterator`, the
  open handles are kept in an explicit table and the close calls are recorded.
* Machine integers are natural numbers reduced modulo `2 ^ width`; the widths of
  `unsigned long` and `size_t` are parameters of a `Build`.
* Recursive functions whose recursion depends on their input carry a fuel argument;
  `none` means that the fuel ran out.
-/

namespace kgr.filesystem

/-! ## Strings -/

/-- A `std::string` / `const char *` value. -/
abbrev Str := List Char

/-- Position of the last occurrence of `c`, the model of `std::string::rfind(c)`
before conversion to `size_t` (`none` stands for "not found"). -/
def rfind (c : Char) : Str → Option Nat
  | [] => none
  | x :: xs =>
    match rfind c xs with
    | some i => some (i + 1)
    | none => if x = c then some 0 else none

/-! ## The file system -/

/-- Kind of a file-system object. -/
inductive Kind
  | file
  | dir
  deriving DecidableEq, Repr

/-- One object of the file system: its literal path, its kind, and whether native
removal of it is refused (`locked`, e.g. permission denied or a busy file). -/
structure Ent where
  path : Str
  kind : Kind
  locked : Bool
  deriving DecidableEq, Repr

/-- The file-system table. -/
abbrev FS := List Ent

/-- `p` is an existing directory. -/
def isDir (fs : FS) (p : Str) : Bool :=
  fs.any fun e => e.path == p && e.kind == Kind.dir

/-- `p` is an existing object (file or directory). -/
def pathExists (fs : FS) (p : Str) : Bool :=
  fs.any fun e => e.path == p

/-- `p` lies strictly beneath directory `d`: it starts with `d` followed by the
separator. -/
def under (sep : Char) (d p : Str) : Bool :=
  (d ++ [sep]).isPrefixOf p

/-- The name of `p` as a direct entry of directory `d`, if it is one: `p` is
`d`, the separator, and a non-empty name without separator. -/
def childName (sep : Char) (d p : Str) : Option Str :=
  if under sep d p then
    let n := p.drop (d.length + 1)
    if n ≠ [] ∧ sep ∉ n then some n else none
  else none

/-- `d_type` value of a directory record (`DT_DIR`). -/
def DT_DIR : Nat := 4

/-- `d_type` value of a regular-file record (`DT_REG`). -/
def DT_REG : Nat := 8

/-- A `struct dirent` record: name and reported type. -/
structure Dirent where
  d_name : Str
  d_type : Nat
  deriving DecidableEq, Repr

/-- The reported type of an entry is its actual kind. -/
def dtypeOf : Kind → Nat
  | Kind.dir => DT_DIR
  | Kind.file => DT_REG

/-- The records of the direct entries of `d`, in table order. -/
def childRecords (sep : Char) (fs : FS) (d : Str) : List Dirent :=
  fs.filterMap fun e => (childName sep d e.path).map fun n => ⟨n, dtypeOf e.kind⟩

/-- The sequence of records a scan of `d` provides: `.` and `..` first, then the
direct entries. -/
def scanRecords (sep : Char) (fs : FS) (d : Str) : List Dirent :=
  ⟨['.'], DT_DIR⟩ :: ⟨['.', '.'], DT_DIR⟩ :: childRecords sep fs d

/-- Native `opendir` with the stream kept as a value: the records the stream will
return, or `none` (a null `DIR *`) when `d` is not an existing directory. -/
def opendir (fs : FS) (d : Str) : Option (List Dirent) :=
  if isDir fs d then some (scanRecords '/' fs d) else none

/-- `d` has no direct entry left. -/
def isEmptyDir (sep : Char) (fs : FS) (d : Str) : Bool :=
  fs.all fun e => (childName sep d e.path).isNone

/-- Some entry with path `p` is locked. -/
def isLocked (fs : FS) (p : Str) : Bool :=
  fs.any fun e => e.path == p && e.locked

/-- The table without the object `p`. -/
def erasePath (fs : FS) (p : Str) : FS :=
  fs.filter fun e => !(e.path == p)

/-- Native `rmdir`: return value (`0` on success, `-1` on failure) and new table.
It succeeds on an existing, empty directory that is not locked. -/
def rmdir (sep : Char) (fs : FS) (d : Str) : Int × FS :=
  if isDir fs d && isEmptyDir sep fs d && !isLocked fs d then (0, erasePath fs d)
  else (-1, fs)

/-- `p` is an existing regular file. -/
def isFile (fs : FS) (p : Str) : Bool :=
  fs.any fun e => e.path == p && e.kind == Kind.file

/-- Native C `remove`: unlinks a file that is not locked, and behaves as `rmdir` on a
directory. -/
def remove (sep : Char) (fs : FS) (p : Str) : Int × FS :=
  if isDir fs p then rmdir sep fs p
  else if isFile fs p && !isLocked fs p then (0, erasePath fs p)
  else (-1, fs)

/-- The directory part of `p` exists: `p` has no `/` (entry of the working
directory), its only `/` is the leading one (entry of the root), or the text
before its last `/` is an existing directory. -/
def parentExists (fs : FS) (p : Str) : Bool :=
  match rfind '/' p with
  | none => true
  | some 0 => true
  | some i => isDir fs (p.take i)

/-- Native `mkdir`: succeeds whenever the parent directory exists and the target
does not; the new directory is appended to the table. -/
def mkdir (fs : FS) (p : Str) : Int × FS :=
  if p ≠ [] ∧ parentExists fs p ∧ ¬ pathExists fs p then (0, fs ++ [⟨p, Kind.dir, false⟩])
  else (-1, fs)

/-! ## Single-call primitives (Linux build) -/

/-- Source `path_is_exists` (Linux): `opendir` succeeded; the stream is closed at
once, which leaves the table as it is. -/
def path_is_exists (fs : FS) (directory : Str) : Bool :=
  match opendir fs directory with
  | some _ => true
  | none => false

/-- Source `remove_directory` (Linux). -/
def remove_directory (fs : FS) (directory : Str) : Bool × FS :=
  if path_is_exists fs directory then
    let r := rmdir '/' fs directory
    if r.1 ≠ 0 then (true, r.2) else (false, r.2)
  else (false, fs)

/-! ## Recursive create -/

/-- The data model of a build: the platform branch that is compiled, and the widths
of `unsigned long` and of `size_t`. -/
structure Build where
  windows : Bool
  ulongBits : Nat
  sizeBits : Nat
  deriving DecidableEq, Repr

/-- Linux, LP64: `unsigned long` and `size_t` are both 64 bits wide. -/
def linux64 : Build := ⟨false, 64, 64⟩

/-- Windows x64, LLP64: `unsigned long` is 32 bits wide, `size_t` is 64 bits wide. -/
def win64 : Build := ⟨true, 32, 64⟩

/-- The constant `std::string::npos`, the largest `size_t`. -/
def npos (b : Build) : Nat := 2 ^ b.sizeBits - 1

/-- The `size_t` value returned by `directory.rfind(c)`. -/
def rfindSize (b : Build) (c : Char) (s : Str) : Nat :=
  match rfind c s with
  | some i => i % 2 ^ b.sizeBits
  | none => npos b

/-- Conversion of a `size_t` to `unsigned long` (the initialisation of `pos`). -/
def toULong (b : Build) (x : Nat) : Nat := x % 2 ^ b.ulongBits

/-- Windows: the directory part of `p` exists, the separator being the last `\` or
`/` of `p`. -/
def parentExistsWin (fs : FS) (p : Str) : Bool :=
  match rfind '\\' (p.map fun c => if c = '/' then '\\' else c) with
  | none => true
  | some 0 => true
  | some i => isDir fs (p.take i)

/-- Native `CreateDirectoryA`: a non-zero result on success. -/
def CreateDirectoryA (fs : FS) (p : Str) : Int × FS :=
  if p ≠ [] ∧ parentExistsWin fs p ∧ ¬ pathExists fs p then (1, fs ++ [⟨p, Kind.dir, false⟩])
  else (0, fs)

/-- Source `create_directory`: the new table and the native creation calls issued
(`mkdir` on Linux, `CreateDirectoryA` on Windows), whose result the code ignores. -/
def create_directory (b : Build) (fs : FS) (directory : Str) : FS × List Str :=
  if b.windows then
    if !pathExists fs directory then ((CreateDirectoryA fs directory).2, [directory])
    else (fs, [])
  else
    match opendir fs directory with
    | none => ((mkdir fs directory).2, [directory])
    | some _ => (fs, [])

/-- What a run of `create_directory_recurse` did: the final table, the arguments of
the `create_directory` invocations in order, and the native creation calls in
order. -/
structure CreateRun where
  fs : FS
  calls : List Str
  mkdirs : List Str
  deriving DecidableEq, Repr

/-- Source `create_directory_recurse`.  `pos` is an `unsigned long`; it is compared
with `npos` after the usual arithmetic conversions (both operands keep their
value), and converted back to `size_t` as the count of `substr(0, pos)`, which
clips the count to the length of the string. -/
def create_directory_recurse (b : Build) : Nat → FS → Str → Option CreateRun
  | 0, _, _ => none
  | fuel + 1, fs, directory =>
    let pos := toULong b (rfindSize b '/' directory)
    let pos := if b.windows && pos == npos b then toULong b (rfindSize b '\\' directory) else pos
    let before : Option CreateRun :=
      if pos != npos b && pos != 0 then
        create_directory_recurse b fuel fs (directory.take (pos % 2 ^ b.sizeBits))
      else some ⟨fs, [], []⟩
    before.bind fun r =>
      let c := create_directory b r.fs directory
      some ⟨c.1, r.calls ++ [directory], r.mkdirs ++ c.2⟩

/-! ## Recursive remove -/

/-- The native removal calls `remove_directory_recurse` issues. -/
inductive NativeOp
  | remove
  | rmdir
  deriving DecidableEq, Repr

/-- One native removal call: which call, on which path, and whether it reported
success. -/
structure Call where
  op : NativeOp
  path : Str
  ok : Bool
  deriving DecidableEq, Repr

/-- What a run of `remove_directory_recurse` did: the value returned, the final
table, and the native removal calls issued, in order. -/
structure RemoveRun where
  result : Bool
  fs : FS
  trace : List Call
  deriving DecidableEq, Repr

/-- The `while ((entry = readdir(dir)) != nullptr)` loop of the Linux branch, over the
records the stream still holds.  `recurse` is the recursive call.  `result` is
`false` when the loop left the function through one of its `return false`, and
`true` when the loop ran to the end of the stream. -/
def removeLoop (recurse : FS → Str → Option RemoveRun) (directory : Str) :
    List Dirent → FS → Option RemoveRun
  | [], fs => some ⟨true, fs, []⟩
  | entry :: rest, fs =>
    if entry.d_name = ['.'] ∨ entry.d_name = ['.', '.'] then
      removeLoop recurse directory rest fs
    else
      let filepath := directory ++ '/' :: entry.d_name
      if entry.d_type = DT_DIR then
        match recurse fs filepath with
        | none => none
        | some r =>
          if !r.result then some ⟨false, r.fs, r.trace⟩
          else
            (removeLoop recurse directory rest r.fs).map fun q =>
              ⟨q.result, q.fs, r.trace ++ q.trace⟩
      else
        let r := remove '/' fs filepath
        if r.1 ≠ 0 then some ⟨false, r.2, [⟨NativeOp.remove, filepath, false⟩]⟩
        else
          (removeLoop recurse directory rest r.2).map fun q =>
            ⟨q.result, q.fs, ⟨NativeOp.remove, filepath, true⟩ :: q.trace⟩

/-- Source `remove_directory_recurse`, Linux branch.  The `DIR` stream is the list of
records `opendir` returned; `closedir` has no effect on the table. -/
def remove_directory_recurse : Nat → FS → Str → Option RemoveRun
  | 0, _, _ => none
  | fuel + 1, fs, directory =>
    match opendir fs directory with
    | none => some ⟨false, fs, []⟩
    | some dir =>
      match removeLoop (remove_directory_recurse fuel) directory dir fs with
      | none => none
      | some r =>
        if !r.result then some r
        else
          let q := rmdir '/' r.fs directory
          if q.1 ≠ 0 then some ⟨false, q.2, r.trace ++ [⟨NativeOp.rmdir, directory, false⟩]⟩
          else some ⟨true, q.2, r.trace ++ [⟨NativeOp.rmdir, directory, true⟩]⟩

/-- Attribute bit `FILE_ATTRIBUTE_DIRECTORY`. -/
def FILE_ATTRIBUTE_DIRECTORY : Nat := 16

/-- Attribute bit `FILE_ATTRIBUTE_ARCHIVE`, the attributes of a plain file. -/
def FILE_ATTRIBUTE_ARCHIVE : Nat := 32

/-- A `WIN32_FIND_DATA` record: name and attributes. -/
structure FindData where
  cFileName : Str
  dwFileAttributes : Nat
  deriving DecidableEq, Repr

/-- The directory a search pattern `dir\*` or `dir\*.*` enumerates. -/
def patternDir (findpath : Str) : Option Str :=
  match findpath.reverse with
  | '*' :: '.' :: '*' :: '\\' :: r => some r.reverse
  | '*' :: '\\' :: r => some r.reverse
  | _ => none

/-- The records a Windows search of directory `d` provides. -/
def findRecords (fs : FS) (d : Str) : List FindData :=
  (scanRecords '\\' fs d).map fun r =>
    ⟨r.d_name, if r.d_type = DT_DIR then FILE_ATTRIBUTE_DIRECTORY else FILE_ATTRIBUTE_ARCHIVE⟩

/-- Native `FindFirstFile` with the search kept as a value: the records it will
deliver, or `none` (`INVALID_HANDLE_VALUE`) when the pattern matches nothing. -/
def FindFirstFileA (fs : FS) (findpath : Str) : Option (List FindData) :=
  match patternDir findpath with
  | none => none
  | some d => if isDir fs d then some (findRecords fs d) else none

/-- Native C `remove` of the Windows runtime: unlinks a file that is not locked, and
fails on a directory. -/
def removeWin (fs : FS) (p : Str) : Int × FS :=
  if isFile fs p && !isDir fs p && !isLocked fs p then (0, erasePath fs p)
  else (-1, fs)

/-- The `do ... while (FindNextFileA(hFile, &fileData))` loop of the Windows branch,
over the records the search still holds.  The recursive call receives `directory`,
as the source passes it. -/
def removeLoopWin (recurse : FS → Str → Option RemoveRun) (directory : Str) :
    List FindData → FS → Option RemoveRun
  | [], fs => some ⟨true, fs, []⟩
  | fileData :: rest, fs =>
    if fileData.cFileName = ['.'] ∨ fileData.cFileName = ['.', '.'] then
      removeLoopWin recurse directory rest fs
    else if fileData.dwFileAttributes = FILE_ATTRIBUTE_DIRECTORY then
      match recurse fs directory with
      | none => none
      | some r =>
        if !r.result then some ⟨false, r.fs, r.trace⟩
        else
          (removeLoopWin recurse directory rest r.fs).map fun q =>
            ⟨q.result, q.fs, r.trace ++ q.trace⟩
    else
      let filepath := directory ++ '\\' :: fileData.cFileName
      let r := removeWin fs filepath
      if r.1 ≠ 0 then some ⟨false, r.2, [⟨NativeOp.remove, filepath, false⟩]⟩
      else
        (removeLoopWin recurse directory rest r.2).map fun q =>
          ⟨q.result, q.fs, ⟨NativeOp.remove, filepath, true⟩ :: q.trace⟩

/-- Source `remove_directory_recurse`, Windows branch (the fixed-size path buffers
are taken to be large enough). -/
def remove_directory_recurse_win : Nat → FS → Str → Option RemoveRun
  | 0, _, _ => none
  | fuel + 1, fs, directory =>
    match FindFirstFileA fs (directory ++ ['\\', '*', '.', '*']) with
    | none => some ⟨false, fs, []⟩
    | some [] => some ⟨false, fs, []⟩
    | some (first :: rest) =>
      match removeLoopWin (remove_directory_recurse_win fuel) directory (first :: rest) fs with
      | none => none
      | some r =>
        if !r.result then some r
        else
          let q := rmdir '\\' r.fs directory
          if q.1 ≠ 0 then some ⟨false, q.2, r.trace ++ [⟨NativeOp.rmdir, directory, false⟩]⟩
          else some ⟨true, q.2, r.trace ++ [⟨NativeOp.rmdir, directory, true⟩]⟩

/-! ## Directory iteration -/

/-- The operating system as the Linux iterator sees it: the table, the open `DIR`
streams with the records each has not delivered yet, a counter for fresh handle
values, and the `closedir` calls issued so far with the handle each was given. -/
structure Sys where
  fs : FS
  streams : List (Nat × List Dirent)
  next : Nat
  closes : List Nat
  deriving DecidableEq, Repr

/-- The pending records of the open handle `h`, if `h` is open. -/
def pending {α : Type} (h : Nat) : List (Nat × α) → Option α
  | [] => none
  | p :: tl => if p.1 = h then some p.2 else pending h tl

/-- Replace the pending records of the open handle `h`. -/
def setPending {α : Type} (h : Nat) (rs : α) : List (Nat × α) → List (Nat × α)
  | [] => []
  | p :: tl => if p.1 = h then (h, rs) :: tl else p :: setPending h rs tl

/-- Native `opendir` with a handle table: a null pointer (`0`) on failure, a fresh
non-null `DIR *` otherwise. -/
def Sys.opendir (sys : Sys) (d : Str) : Nat × Sys :=
  match kgr.filesystem.opendir sys.fs d with
  | none => (0, sys)
  | some recs =>
    (sys.next + 1, { sys with streams := (sys.next + 1, recs) :: sys.streams, next := sys.next + 1 })

/-- Native `readdir`: the next record of the stream, or a null pointer at its end.
`none` when `h` is null or not an open stream (undefined behaviour). -/
def Sys.readdir (sys : Sys) (h : Nat) : Option (Option Dirent × Sys) :=
  if h = 0 then none
  else
    match pending h sys.streams with
    | none => none
    | some [] => some (none, sys)
    | some (r :: rs) => some (some r, { sys with streams := setPending h rs sys.streams })

/-- Native `closedir`: the call is recorded and the stream, if open, is released. -/
def Sys.close (sys : Sys) (h : Nat) : Sys :=
  { sys with streams := sys.streams.filter (fun p => p.1 ≠ h), closes := sys.closes ++ [h] }

/-- Source `DirectoryContainer`: the directory to scan. -/
structure DirectoryContainer where
  m_directory : Str
  deriving DecidableEq, Repr

/-- Source `DirectoryContainer::filepath`. -/
def DirectoryContainer.filepath (c : DirectoryContainer) : Str :=
  c.m_directory

/-- Linux `DirectoryIterator`, with the members `kgr_filesystem.cpp` assigns (the class
declaration, in `kgr_filesystem.h`, is not among the sources): the container, the
`DIR *` (`0` is `nullptr`), and the `dirent *` (`none` is `nullptr`). -/
structure DirectoryIterator where
  m_container : DirectoryContainer
  m_dirHandler : Nat
  m_entry : Option Dirent
  deriving DecidableEq, Repr

/-- Linux `DirectoryEntry`: the wrapped `dirent *`. -/
structure DirectoryEntry where
  m_entry : Option Dirent
  deriving DecidableEq, Repr

/-- Source `DirectoryEntry::file_name` (Linux); `none` when the wrapped pointer is
null (undefined behaviour). -/
def DirectoryEntry.file_name (e : DirectoryEntry) : Option Str :=
  e.m_entry.map fun r => r.d_name

/-- Source `DirectoryEntry::is_directory` (Linux); `none` when the wrapped pointer is
null (undefined behaviour). -/
def DirectoryEntry.is_directory (e : DirectoryEntry) : Option Bool :=
  e.m_entry.map fun r => r.d_type == DT_DIR

/-- Source `DirectoryIterator::DirectoryIterator` (Linux). -/
def DirectoryIterator.new (container : DirectoryContainer) : DirectoryIterator :=
  ⟨container, 0, none⟩

/-- Source `DirectoryContainer::iterator` (Linux). -/
def DirectoryContainer.iterator (c : DirectoryContainer) : DirectoryIterator :=
  DirectoryIterator.new c

/-- Source `DirectoryIterator::toNext` (Linux). -/
def DirectoryIterator.toNext (sys : Sys) (it : DirectoryIterator) :
    Option (Sys × DirectoryIterator) :=
  (sys.readdir it.m_dirHandler).map fun r => (r.2, { it with m_entry := r.1 })

/-- Source `DirectoryIterator::start` (Linux). -/
def DirectoryIterator.start (sys : Sys) (it : DirectoryIterator) :
    Option (Sys × DirectoryIterator) :=
  let r := sys.opendir it.m_container.m_directory
  let it1 := { it with m_dirHandler := r.1 }
  if r.1 ≠ 0 then it1.toNext r.2 else some (r.2, it1)

/-- Source `DirectoryIterator::isDone` (Linux). -/
def DirectoryIterator.isDone (it : DirectoryIterator) : Bool :=
  it.m_entry.isNone

/-- Source `DirectoryIterator::current` (Linux). -/
def DirectoryIterator.current (it : DirectoryIterator) : DirectoryEntry :=
  ⟨it.m_entry⟩

/-- Source `DirectoryIterator::~DirectoryIterator` (Linux). -/
def DirectoryIterator.destroy (sys : Sys) (it : DirectoryIterator) : Sys :=
  if it.m_dirHandler ≠ 0 then sys.close it.m_dirHandler else sys

/-- The loop `while (!isDone()) { read current(); toNext(); }`: the entries read, and
the final state. -/
def canonicalLoop : Nat → Sys → DirectoryIterator →
    Option (List DirectoryEntry × Sys × DirectoryIterator)
  | 0, _, _ => none
  | fuel + 1, sys, it =>
    if it.isDone then some ([], sys, it)
    else
      match it.toNext sys with
      | none => none
      | some (sys1, it1) =>
        (canonicalLoop fuel sys1 it1).map fun r => (it.current :: r.1, r.2)

/-- The canonical usage: a fresh iterator of the container, `start()`, then the
loop. -/
def iterate (fuel : Nat) (sys : Sys) (directory : Str) :
    Option (List DirectoryEntry × Sys × DirectoryIterator) :=
  match (DirectoryContainer.mk directory).iterator.start sys with
  | none => none
  | some (sys1, it1) => canonicalLoop fuel sys1 it1

/-- `n` successive `toNext()` calls. -/
def toNextTimes : Nat → Sys → DirectoryIterator → Option (Sys × DirectoryIterator)
  | 0, sys, it => some (sys, it)
  | n + 1, sys, it =>
    match it.toNext sys with
    | none => none
    | some (sys1, it1) => toNextTimes n sys1 it1

/-- The value `INVALID_HANDLE_VALUE`, all ones in a 64-bit handle. -/
def INVALID_HANDLE_VALUE : Nat := 2 ^ 64 - 1

/-- Windows `DirectoryIterator`, with the members `kgr_filesystem.cpp` assigns: the
container, the search handle, the find data (`none` while nothing was stored in it),
and the success flag. -/
structure DirectoryIteratorWin where
  m_container : DirectoryContainer
  m_dirHandler : Nat
  m_entry : Option FindData
  m_successful : Bool
  deriving DecidableEq, Repr

/-- The operating system as the Windows iterator sees it: the table, the open search
handles with the records each has not delivered yet, a counter for fresh handle
values, and the `FindClose` calls issued so far with the handle each was given. -/
structure SysWin where
  fs : FS
  searches : List (Nat × List FindData)
  next : Nat
  closes : List Nat
  deriving DecidableEq, Repr

/-- Native `FindFirstFile` with a handle table: `INVALID_HANDLE_VALUE` when nothing
matches, otherwise a fresh handle (a non-zero multiple of four) and the first
record. -/
def SysWin.FindFirstFile (sys : SysWin) (findpath : Str) : Nat × Option FindData × SysWin :=
  match FindFirstFileA sys.fs findpath with
  | none => (INVALID_HANDLE_VALUE, none, sys)
  | some [] => (INVALID_HANDLE_VALUE, none, sys)
  | some (r :: rs) =>
    (4 * (sys.next + 1), some r,
      { sys with searches := (4 * (sys.next + 1), rs) :: sys.searches, next := sys.next + 1 })

/-- Native `FindNextFile`: success flag, the record stored on success, new state.  On
a handle that is not open it fails. -/
def SysWin.FindNextFile (sys : SysWin) (h : Nat) : Bool × Option FindData × SysWin :=
  match pending h sys.searches with
  | none => (false, none, sys)
  | some [] => (false, none, sys)
  | some (r :: rs) =>
    (true, some r, { sys with searches := setPending h rs sys.searches })

/-- Native `FindClose`: the call is recorded and the handle, if open, is released. -/
def SysWin.FindClose (sys : SysWin) (h : Nat) : SysWin :=
  { sys with searches := sys.searches.filter (fun p => p.1 ≠ h), closes := sys.closes ++ [h] }

/-- Source `DirectoryIterator::DirectoryIterator` (Windows). -/
def DirectoryIteratorWin.new (container : DirectoryContainer) : DirectoryIteratorWin :=
  ⟨container, 0, none, false⟩

/-- Source `DirectoryIterator::start` (Windows). -/
def DirectoryIteratorWin.start (sys : SysWin) (it : DirectoryIteratorWin) :
    SysWin × DirectoryIteratorWin :=
  let findpath :=
    if it.m_container.m_directory.getLast? = some '\\' then it.m_container.m_directory ++ ['*']
    else it.m_container.m_directory ++ ['\\', '*']
  let r := sys.FindFirstFile findpath
  let it1 := { it with m_dirHandler := r.1, m_entry := r.2.1 <|> it.m_entry }
  if r.1 ≠ INVALID_HANDLE_VALUE then (r.2.2, { it1 with m_successful := true })
  else (r.2.2, it1)

/-- Source `DirectoryIterator::toNext` (Windows). -/
def DirectoryIteratorWin.toNext (sys : SysWin) (it : DirectoryIteratorWin) :
    SysWin × DirectoryIteratorWin :=
  let r := sys.FindNextFile it.m_dirHandler
  (r.2.2, { it with m_entry := r.2.1 <|> it.m_entry, m_successful := r.1 })

/-- Source `DirectoryIterator::isDone` (Windows). -/
def DirectoryIteratorWin.isDone (it : DirectoryIteratorWin) : Bool :=
  !it.m_successful

/-- Source `DirectoryIterator::~DirectoryIterator` (Windows). -/
def DirectoryIteratorWin.destroy (sys : SysWin) (it : DirectoryIteratorWin) : SysWin :=
  if it.m_dirHandler ≠ 0 then sys.FindClose it.m_dirHandler else sys

/-! ## Sample tables -/

/-- A small tree: directory `d` with a file, a subdirectory, and a file in it; beside
it a file `e`. -/
def sampleTree : FS :=
  [⟨"d".toList, Kind.dir, false⟩, ⟨"d/x".toList, Kind.file, false⟩,
   ⟨"d/sub".toList, Kind.dir, false⟩, ⟨"d/sub/y".toList, Kind.file, false⟩,
   ⟨"e".toList, Kind.file, false⟩]

/-- An empty directory `d`. -/
def emptyDirTree : FS := [⟨"d".toList, Kind.dir, false⟩]

/-- Directory `d` holding one file. -/
def oneFileTree : FS := [⟨"d".toList, Kind.dir, false⟩, ⟨"d/x".toList, Kind.file, false⟩]

/-- Directory `d` holding one empty subdirectory (Linux paths). -/
def oneSubdirTree : FS := [⟨"d".toList, Kind.dir, false⟩, ⟨"d/sub".toList, Kind.dir, false⟩]

/-- Directory `d` holding one empty subdirectory (Windows paths). -/
def oneSubdirTreeWin : FS :=
  [⟨"d".toList, Kind.dir, false⟩, ⟨"d\\sub".toList, Kind.dir, false⟩]

/-! ## Vocabulary of the statements -/

/-- The records a scan of `directory` provides; none when the scan cannot be
opened. -/
def providedRecords (fs : FS) (directory : Str) : List Dirent :=
  (opendir fs directory).getD []

/-- The name is `.` or `..`. -/
def isDotName (n : Str) : Bool := n == ['.'] || n == ['.', '.']

/-- The names other than `.` and `..` among the entries read. -/
def yieldedNames (es : List DirectoryEntry) : List Str :=
  (es.filterMap fun e => e.file_name).filter fun n => !isDotName n

/-- The directory the Windows iterator scans for a container path: the path without
one trailing backslash. -/
def winScanDir (directory : Str) : Str :=
  if directory.getLast? = some '\\' then directory.dropLast else directory

/-- An operating-system state with the table `fs` and no open handle. -/
def Sys.boot (fs : FS) : Sys := ⟨fs, [], 0, []⟩

/-- A Windows operating-system state with the table `fs` and no open handle. -/
def SysWin.boot (fs : FS) : SysWin := ⟨fs, [], 0, []⟩

/-- The separator position `create_directory_recurse` works with when no integer
conversion loses information: the last `/`, or on Windows, when there is no `/`, the
last `\`. -/
def splitPos (b : Build) (path : Str) : Option Nat :=
  match rfind '/' path with
  | some i => some i
  | none => if b.windows then rfind '\\' path else none

/-- The path `s1/t1/.../tn` made of the first segment `s1` and the further segments
`rest`. -/
def joinSegs (s1 : Str) (rest : List Str) : Str :=
  rest.foldl (fun acc t => acc ++ '/' :: t) s1

/-- The prefixes `s1`, `s1/t1`, ..., `s1/t1/.../tn` of the path `joinSegs s1 rest`,
shortest first. -/
def pathPrefixes : Str → List Str → List Str
  | s, [] => [s]
  | s, t :: ts => s :: pathPrefixes (s ++ '/' :: t) ts

/-- The table entries `mkdir` appends for the given paths. -/
def newDirs (ps : List Str) : FS := ps.map fun p => ⟨p, Kind.dir, false⟩

/-- `p` is `d` itself or lies beneath `d`. -/
def atOrUnder (sep : Char) (d p : Str) : Bool :=
  p == d || under sep d p

/-- Some successful call of the trace removed the path `p`. -/
def removedBy (tr : List Call) (p : Str) : Bool :=
  tr.any fun c => c.ok && c.path == p

/-- What holds of every run that returns: the final table is the initial table
without the paths removed by the successful calls; `scope` holds of every path a
call was issued on; every call but the last succeeded; and when the result is
`true` every call succeeded. -/
def RunInv (scope : Str → Bool) (fs : FS) (r : RemoveRun) : Prop :=
  r.fs = fs.filter (fun e => !removedBy r.trace e.path) ∧
  (∀ c ∈ r.trace, scope c.path = true) ∧
  (∀ c ∈ r.trace.dropLast, c.ok = true) ∧
  (r.result = true → ∀ c ∈ r.trace, c.ok = true)

/-- Every entry beneath `d` is a direct entry of some directory of the table, under
a name other than `.` and `..`. -/
def parentClosed (sep : Char) (fs : FS) (d : Str) : Bool :=
  fs.all fun e =>
    !under sep d e.path ||
      fs.any fun q =>
        q.kind == Kind.dir &&
          match childName sep q.path e.path with
          | some n => !isDotName n
          | none => false

/-- No entry at `d` or beneath it is locked. -/
def unlockedUnder (sep : Char) (fs : FS) (d : Str) : Bool :=
  fs.all fun e => !atOrUnder sep d e.path || !e.locked

/-- What the success proof needs of a record `r` of the scan of `d`, in the table
`cur`: a proper name; for a directory record, a well-formed unlocked subtree with
fewer than `fuel` entries; for another record, an unlocked file. -/
def RecOk (fuel : Nat) (d : Str) (cur : FS) (r : Dirent) : Prop :=
  r.d_name ≠ [] ∧ '/' ∉ r.d_name ∧ isDotName r.d_name = false ∧
  (r.d_type = DT_DIR →
    isDir cur (d ++ '/' :: r.d_name) = true ∧
    parentClosed '/' cur (d ++ '/' :: r.d_name) = true ∧
    unlockedUnder '/' cur (d ++ '/' :: r.d_name) = true ∧
    (cur.filter fun e => under '/' (d ++ '/' :: r.d_name) e.path).length < fuel) ∧
  (r.d_type ≠ DT_DIR →
    isFile cur (d ++ '/' :: r.d_name) = true ∧
    isDir cur (d ++ '/' :: r.d_name) = false ∧
    isLocked cur (d ++ '/' :: r.d_name) = false)

/-- Directory `d` with a file `a`, a subdirectory `sub` holding the locked file `y`,
and a file `z`. -/
def lockedTree : FS :=
  [⟨"d".toList, Kind.dir, false⟩, ⟨"d/a".toList, Kind.file, false⟩,
   ⟨"d/sub".toList, Kind.dir, false⟩, ⟨"d/sub/y".toList, Kind.file, true⟩,
   ⟨"d/z".toList, Kind.file, false⟩]

/-! # Theorems -/

/-! ## Single-call primitives -/

/-- The value `remove_directory` returns, in general: `true` exactly when the
directory exists and the native `rmdir` reported a failure. -/
theorem remove_directory_result (fs : FS) (d : Str) :
    (remove_directory fs d).1 = (path_is_exists fs d && decide ((rmdir '/' fs d).1 ≠ 0)) := by
  unfold remove_directory
  by_cases h : path_is_exists fs d = true
  · by_cases h2 : (rmdir '/' fs d).1 ≠ 0 <;> simp [h, h2]
  · simp [h]

/-- C6: on the existing, empty, removable directory `d` the native `rmdir` succeeds and
the directory is gone afterwards, yet `remove_directory` returns `false`; on the
directory `d` that still holds a file the native `rmdir` fails, the directory is
still there, yet `remove_directory` returns `true`. -/
theorem remove_directory_inverted :
    path_is_exists emptyDirTree "d".toList = true ∧
    (rmdir '/' emptyDirTree "d".toList).1 = 0 ∧
    remove_directory emptyDirTree "d".toList = (false, []) ∧
    path_is_exists (remove_directory emptyDirTree "d".toList).2 "d".toList = false ∧
    (rmdir '/' oneFileTree "d".toList).1 ≠ 0 ∧
    remove_directory oneFileTree "d".toList = (true, oneFileTree) := by
  decide

/-! ## Recursive remove, Windows branch -/

/-- C9: on the Windows build, for the directory `d` that holds one empty subdirectory
`sub`, the recursive call is made on `d` again, not on `d\sub`, so no amount of
fuel lets `remove_directory_recurse` return; the Linux branch, which recurses on
`d/sub`, removes the same tree and returns `true`. -/
theorem remove_directory_recurse_win_diverges :
    (∀ fuel, remove_directory_recurse_win fuel oneSubdirTreeWin "d".toList = none) ∧
    remove_directory_recurse 2 oneSubdirTree "d".toList =
      some ⟨true, [], [⟨NativeOp.rmdir, "d/sub".toList, true⟩, ⟨NativeOp.rmdir, "d".toList, true⟩]⟩ := by
  refine ⟨?_, by decide⟩
  intro fuel
  induction fuel with
  | zero => rfl
  | succ n ih =>
    have hscan : FindFirstFileA oneSubdirTreeWin ("d".toList ++ ['\\', '*', '.', '*']) =
        some [⟨['.'], 16⟩, ⟨['.', '.'], 16⟩, ⟨"sub".toList, 16⟩] := by decide
    simp only [remove_directory_recurse_win, hscan]
    have hloop : removeLoopWin (remove_directory_recurse_win n) "d".toList
        [⟨['.'], 16⟩, ⟨['.', '.'], 16⟩, ⟨"sub".toList, 16⟩] oneSubdirTreeWin = none := by
      have ih2 : remove_directory_recurse_win n oneSubdirTreeWin ['d'] = none := ih
      simp [removeLoopWin, ih2, FILE_ATTRIBUTE_DIRECTORY]
    rw [hloop]

/-! ## Directory iteration -/

theorem pending_setPending {α : Type} (h : Nat) (rs : α) (streams : List (Nat × α))
    (hx : (pending h streams).isSome) : pending h (setPending h rs streams) = some rs := by
  induction streams with
  | nil => simp [pending] at hx
  | cons p tl ih =>
    by_cases hk : p.1 = h
    · simp [setPending, pending, hk]
    · simp only [pending, hk, if_false] at hx
      simp [setPending, pending, hk, ih hx]

/-- The loop started on a staged record `r` with the records `rs` pending on the
handle reads `r :: rs` and stops. -/
theorem canonicalLoop_reads (rs : List Dirent) :
    ∀ (r : Dirent) (sys : Sys) (it : DirectoryIterator), it.m_dirHandler ≠ 0 →
      pending it.m_dirHandler sys.streams = some rs → it.m_entry = some r →
      (canonicalLoop (rs.length + 2) sys it).map (fun x => x.1) =
        some ((r :: rs).map fun x => ⟨some x⟩) := by
  induction rs with
  | nil =>
    intro r sys it h0 hp he
    simp [canonicalLoop, DirectoryIterator.isDone, DirectoryIterator.toNext, Sys.readdir, hp, he,
      DirectoryIterator.current, h0]
  | cons r2 rs ih =>
    intro r sys it h0 hp he
    have hp2 : pending it.m_dirHandler (setPending it.m_dirHandler rs sys.streams) = some rs :=
      pending_setPending _ _ _ (by simp [hp])
    have h := ih r2 { sys with streams := setPending it.m_dirHandler rs sys.streams }
      { it with m_entry := some r2 } h0 hp2 rfl
    rw [canonicalLoop]
    simp only [DirectoryIterator.isDone, he, DirectoryIterator.toNext, Sys.readdir, hp,
      DirectoryIterator.current, Option.map_some', Option.isNone_some, h0, if_false]
    simp only [List.length_cons] at h ⊢
    cases hc : canonicalLoop (rs.length + 2)
        { sys with streams := setPending it.m_dirHandler rs sys.streams }
        { it with m_entry := some r2 } with
    | none => simp [hc] at h
    | some x =>
      simp [hc] at h
      simp [hc, h]

theorem iterate_reads (sys : Sys) (directory : Str) :
    (iterate ((providedRecords sys.fs directory).length + 1) sys directory).map (fun x => x.1) =
      some ((providedRecords sys.fs directory).map fun r => ⟨some r⟩) := by
  unfold iterate DirectoryIterator.start Sys.opendir providedRecords
  simp only [DirectoryContainer.iterator, DirectoryIterator.new]
  cases ho : opendir sys.fs directory with
  | none =>
    simp [ho, canonicalLoop, DirectoryIterator.isDone]
  | some recs =>
    have hne : recs = scanRecords '/' sys.fs directory := by
      unfold opendir at ho
      split at ho <;> simp at ho
      exact ho.symm
    obtain ⟨r0, rest, hr⟩ : ∃ r0 rest, recs = r0 :: rest := ⟨_, _, hne⟩
    subst hr
    simp only [ho, DirectoryIterator.new, DirectoryIterator.toNext, Sys.readdir, pending,
      setPending, if_true, Option.getD_some, List.length_cons, Option.map_some',
      Nat.succ_ne_zero, ne_eq, not_false_eq_true]
    exact canonicalLoop_reads rest r0 _ _ (by simp) (by simp [pending]) rfl

/-- C4: on the Linux build the canonical loop `start(); while (!isDone()) { current();
toNext(); }` returns (fuel: one step per record and one more), and the entries read
through `current()` are exactly the records the OS scan of the container path
provides, in that order, each once (nothing when the scan cannot be opened); hence
the names read other than `.` and `..` are exactly the names of the directory's
entries other than `.` and `..`, in scan order, each once. -/
theorem canonical_loop_yields_scan (sys : Sys) (directory : Str) :
    (iterate ((providedRecords sys.fs directory).length + 1) sys directory).map (fun x => x.1) =
      some ((providedRecords sys.fs directory).map fun r => ⟨some r⟩) ∧
    (iterate ((providedRecords sys.fs directory).length + 1) sys directory).map
        (fun x => yieldedNames x.1) =
      some (if isDir sys.fs directory then
        ((childRecords '/' sys.fs directory).map fun r => r.d_name).filter fun n => !isDotName n
        else []) := by
  have h := iterate_reads sys directory
  refine ⟨h, ?_⟩
  cases hi : iterate ((providedRecords sys.fs directory).length + 1) sys directory with
  | none => simp [hi] at h
  | some x =>
    simp only [hi, Option.map_some', Option.some.injEq] at h ⊢
    rw [h]
    unfold yieldedNames providedRecords opendir
    simp only [DirectoryEntry.file_name]
    by_cases hd : isDir sys.fs directory = true
    · have hmap : ∀ l : List Dirent,
          l.filterMap (fun x => some x.d_name) = l.map (fun r => r.d_name) := by
        intro l
        induction l <;> simp_all
      simp [hd, scanRecords, List.filterMap_map, isDotName, Function.comp_def, hmap]
    · simp [hd]

theorem patternDir_star (directory : Str) :
    patternDir (if directory.getLast? = some '\\' then directory ++ ['*']
      else directory ++ ['\\', '*']) = some (winScanDir directory) := by
  unfold winScanDir
  by_cases h : directory.getLast? = some '\\'
  · obtain ⟨pre, rfl⟩ : ∃ pre, directory = pre ++ ['\\'] := by
      rcases List.eq_nil_or_concat directory with h0 | ⟨pre, c, h1⟩
      · simp [h0] at h
      · subst h1
        simp at h
        exact ⟨pre, by simp [h]⟩
    simp [patternDir]
  · simp [h, patternDir]

/-- After `start()` the Linux iterator is done exactly when the scan could not be
opened. -/
theorem isDone_after_start_linux (sys : Sys) (directory : Str) :
    ((DirectoryIterator.new ⟨directory⟩).start sys).map (fun r => r.2.isDone) =
      some (!isDir sys.fs directory) := by
  unfold DirectoryIterator.start Sys.opendir opendir
  by_cases hd : isDir sys.fs directory = true
  · simp [hd, DirectoryIterator.new, DirectoryIterator.toNext, Sys.readdir, pending, scanRecords,
      DirectoryIterator.isDone]
  · simp [hd, DirectoryIterator.new, DirectoryIterator.isDone]

theorem isDone_after_two_linux (sys : Sys) (directory : Str) :
    (((DirectoryIterator.new ⟨directory⟩).start sys).bind fun r => toNextTimes 2 r.1 r.2).map
        (fun r => r.2.isDone) =
      if isDir sys.fs directory then some (decide (childRecords '/' sys.fs directory = []))
      else none := by
  unfold DirectoryIterator.start Sys.opendir opendir
  by_cases hd : isDir sys.fs directory = true
  · cases hc : childRecords '/' sys.fs directory <;>
      simp [hd, hc, DirectoryIterator.new, DirectoryIterator.toNext, Sys.readdir, pending,
        setPending, scanRecords, DirectoryIterator.isDone, toNextTimes]
  · simp [hd, DirectoryIterator.new, DirectoryIterator.isDone, toNextTimes,
      DirectoryIterator.toNext, Sys.readdir, pending]

/-- After `start()` the Windows iterator is done exactly when the search could not be
opened. -/
theorem isDone_after_start_win (sys : SysWin) (directory : Str) :
    ((DirectoryIteratorWin.new ⟨directory⟩).start sys).2.isDone =
      !isDir sys.fs (winScanDir directory) := by
  have hp := patternDir_star directory
  unfold DirectoryIteratorWin.start SysWin.FindFirstFile FindFirstFileA
  simp only [DirectoryIteratorWin.new]
  rw [hp]
  by_cases hd : isDir sys.fs (winScanDir directory) = true
  · have h4 : 4 * (sys.next + 1) ≠ INVALID_HANDLE_VALUE := by
      unfold INVALID_HANDLE_VALUE
      omega
    simp [hd, findRecords, scanRecords, DirectoryIteratorWin.isDone, h4]
  · simp [hd, DirectoryIteratorWin.isDone]

/-- C5 (as stated, refuted): the scan of the empty directory `d` provides exactly the
records `.` and `..`, and `isDone()` called immediately after `start()` on a
freshly constructed iterator of `d` returns `false`, on the Linux build and on the
Windows build. -/
theorem isDone_after_start_empty_dir :
    providedRecords emptyDirTree "d".toList = [⟨['.'], DT_DIR⟩, ⟨['.', '.'], DT_DIR⟩] ∧
    ((DirectoryIterator.new ⟨"d".toList⟩).start (Sys.boot emptyDirTree)).map
      (fun r => r.2.isDone) = some false ∧
    ((DirectoryIteratorWin.new ⟨"d".toList⟩).start (SysWin.boot emptyDirTree)).2.isDone = false := by
  decide

/-- With the records `rs` pending on the open handle, the iterator is done after
`n + 1` calls of `toNext()` exactly when `n` calls were enough to pass them all. -/
theorem toNextTimes_isDone (n : Nat) :
    ∀ (rs : List Dirent) (sys : Sys) (it : DirectoryIterator), it.m_dirHandler ≠ 0 →
      pending it.m_dirHandler sys.streams = some rs →
      (toNextTimes (n + 1) sys it).map (fun r => r.2.isDone) =
        some (decide (rs.length ≤ n)) := by
  induction n with
  | zero =>
    intro rs sys it h0 hp
    cases rs with
    | nil =>
      simp [toNextTimes, DirectoryIterator.toNext, Sys.readdir, h0, hp,
        DirectoryIterator.isDone]
    | cons r rs =>
      simp [toNextTimes, DirectoryIterator.toNext, Sys.readdir, h0, hp,
        DirectoryIterator.isDone]
  | succ n ih =>
    intro rs sys it h0 hp
    rw [toNextTimes]
    cases rs with
    | nil =>
      have h := ih [] sys { it with m_entry := none } h0 hp
      simp only [DirectoryIterator.toNext, Sys.readdir, h0, if_false, hp, Option.map_some']
      rw [h]
      simp
    | cons r rs =>
      have hp2 : pending it.m_dirHandler (setPending it.m_dirHandler rs sys.streams) =
          some rs := pending_setPending _ _ _ (by simp [hp])
      have h := ih rs { sys with streams := setPending it.m_dirHandler rs sys.streams }
        { it with m_entry := some r } h0 hp2
      simp only [DirectoryIterator.toNext, Sys.readdir, h0, if_false, hp, Option.map_some']
      rw [h]
      simp

/-- On Linux, after `start()` and `n` further `toNext()` calls the iterator of a
directory that can be opened is done exactly when `n` is at least the number of
records of the scan, `.` and `..` included; when the scan cannot be opened it is
done after `start()`, and a `toNext()` call reads through a null `DIR *`. -/
theorem isDone_after_n_linux (sys : Sys) (directory : Str) (n : Nat) :
    (((DirectoryIterator.new ⟨directory⟩).start sys).bind fun r => toNextTimes n r.1 r.2).map
        (fun r => r.2.isDone) =
      if isDir sys.fs directory then
        some (decide ((childRecords '/' sys.fs directory).length + 2 ≤ n))
      else if n = 0 then some true else none := by
  unfold DirectoryIterator.start Sys.opendir opendir
  by_cases hd : isDir sys.fs directory = true
  · cases n with
    | zero =>
      simp [hd, DirectoryIterator.new, DirectoryIterator.toNext, Sys.readdir, pending,
        setPending, scanRecords, DirectoryIterator.isDone, toNextTimes]
    | succ m =>
      simp only [hd, if_true, DirectoryIterator.new, scanRecords, DirectoryIterator.toNext,
        Sys.readdir, pending, setPending, Nat.succ_ne_zero, ne_eq, not_false_eq_true,
        if_false, Option.map_some', Option.some_bind]
      rw [toNextTimes_isDone m (⟨['.', '.'], DT_DIR⟩ :: childRecords '/' sys.fs directory) _ _
        (by simp) (by simp [pending])]
      simp
  · cases n with
    | zero => simp [hd, DirectoryIterator.new, DirectoryIterator.isDone, toNextTimes]
    | succ m =>
      simp [hd, DirectoryIterator.new, DirectoryIterator.isDone, toNextTimes,
        DirectoryIterator.toNext, Sys.readdir, pending]

/-- C5 (amended): for every freshly constructed iterator, `isDone()` called
immediately after `start()` returns `true` exactly when the scan of the container
path cannot be opened (Linux and Windows); for a directory that can be opened,
an empty one included, it returns `false`, the record `.` being staged; on Linux,
after two further `toNext()` calls (past `.` and `..`) `isDone()` returns `true`
exactly when the directory has no other entry, after one further `toNext()` call it
still returns `false` (the record `..` is staged), and in general after `n` further
`toNext()` calls it returns `true` exactly when `n` is at least the number of
entries plus two. -/
theorem isDone_after_start (sys : Sys) (sysw : SysWin) (directory : Str) :
    ((DirectoryIterator.new ⟨directory⟩).start sys).map (fun r => r.2.isDone) =
      some (!isDir sys.fs directory) ∧
    ((DirectoryIteratorWin.new ⟨directory⟩).start sysw).2.isDone =
      (!isDir sysw.fs (winScanDir directory)) ∧
    ((((DirectoryIterator.new ⟨directory⟩).start sys).bind fun r => toNextTimes 2 r.1 r.2).map
        (fun r => r.2.isDone) =
      if isDir sys.fs directory then some (decide (childRecords '/' sys.fs directory = []))
      else none) ∧
    ((((DirectoryIterator.new ⟨directory⟩).start sys).bind fun r => toNextTimes 1 r.1 r.2).map
        (fun r => r.2.isDone) =
      if isDir sys.fs directory then some false else none) ∧
    ∀ n, (((DirectoryIterator.new ⟨directory⟩).start sys).bind fun r =>
          toNextTimes n r.1 r.2).map (fun r => r.2.isDone) =
      if isDir sys.fs directory then
        some (decide ((childRecords '/' sys.fs directory).length + 2 ≤ n))
      else if n = 0 then some true else none := by
  refine ⟨isDone_after_start_linux sys directory, isDone_after_start_win sysw directory,
    isDone_after_two_linux sys directory, ?_, fun n => isDone_after_n_linux sys directory n⟩
  rw [isDone_after_n_linux sys directory 1]
  by_cases hd : isDir sys.fs directory = true
  · simp [hd]
  · simp [hd]

theorem toNextTimes_handle (n : Nat) :
    ∀ (sys : Sys) (it : DirectoryIterator) (sys2 : Sys) (it2 : DirectoryIterator),
      toNextTimes n sys it = some (sys2, it2) →
      it2.m_dirHandler = it.m_dirHandler ∧ sys2.closes = sys.closes := by
  induction n with
  | zero =>
    intro sys it sys2 it2 h
    simp [toNextTimes] at h
    obtain ⟨h1, h2⟩ := h
    subst h1 h2
    exact ⟨rfl, rfl⟩
  | succ n ih =>
    intro sys it sys2 it2 h
    rw [toNextTimes] at h
    cases ht : it.toNext sys with
    | none => simp [ht] at h
    | some x =>
      obtain ⟨sys1, it1⟩ := x
      simp only [ht] at h
      obtain ⟨h1, h2⟩ := ih sys1 it1 sys2 it2 h
      have hstep : it1.m_dirHandler = it.m_dirHandler ∧ sys1.closes = sys.closes := by
        unfold DirectoryIterator.toNext Sys.readdir at ht
        split at ht
        · simp at ht
        · split at ht <;> simp at ht
          · obtain ⟨e1, e2⟩ := ht
            subst e1 e2
            exact ⟨rfl, rfl⟩
          · obtain ⟨e1, e2⟩ := ht
            subst e1 e2
            exact ⟨rfl, rfl⟩
      exact ⟨h1.trans hstep.1, h2.trans hstep.2⟩

/-- On the Linux build, destroying an iterator that was never started issues no native
close; destroying it after `start()` and any number of `toNext()` calls (mid-scan or
exhausted) issues exactly one `closedir`, on the handle `start()` acquired, when
the scan was opened, and none when it was not. -/
theorem destroy_closes_linux (sys : Sys) (directory : Str) (n : Nat) :
    ((DirectoryIterator.new ⟨directory⟩).destroy sys).closes = sys.closes ∧
    ∀ sys1 it1, (DirectoryIterator.new ⟨directory⟩).start sys = some (sys1, it1) →
      ∀ sys2 it2, toNextTimes n sys1 it1 = some (sys2, it2) →
        (it2.destroy sys2).closes =
          sys.closes ++ (if isDir sys.fs directory then [sys.next + 1] else []) := by
  refine ⟨by simp [DirectoryIterator.destroy, DirectoryIterator.new], ?_⟩
  intro sys1 it1 hs sys2 it2 hn
  obtain ⟨hh, hc⟩ := toNextTimes_handle n sys1 it1 sys2 it2 hn
  have hstart : it1.m_dirHandler = (if isDir sys.fs directory then sys.next + 1 else 0) ∧
      sys1.closes = sys.closes := by
    unfold DirectoryIterator.start Sys.opendir opendir at hs
    by_cases hd : isDir sys.fs directory = true
    · simp [hd, DirectoryIterator.new, DirectoryIterator.toNext, Sys.readdir, pending,
        scanRecords] at hs
      obtain ⟨e1, e2⟩ := hs
      subst e1 e2
      simp [hd]
    · simp [hd, DirectoryIterator.new] at hs
      obtain ⟨e1, e2⟩ := hs
      subst e1 e2
      simp [hd]
  unfold DirectoryIterator.destroy
  rw [hh, hstart.1]
  by_cases hd : isDir sys.fs directory = true
  · simp [hd, Sys.close, hc, hstart.2]
  · simp [hd, hc, hstart.2]

/-- C7: on the Windows build, for a container path that does not exist, `start()`
acquires no handle (the table of open searches stays empty, the handle member is
`INVALID_HANDLE_VALUE`), yet destroying the iterator issues one native `FindClose`,
on `INVALID_HANDLE_VALUE`; destroying a never-started iterator issues none. -/
theorem destroy_after_failed_start_win :
    ((DirectoryIteratorWin.new ⟨"nope".toList⟩).start (SysWin.boot [])).1.searches = [] ∧
    ((DirectoryIteratorWin.new ⟨"nope".toList⟩).start (SysWin.boot [])).2.m_dirHandler =
      INVALID_HANDLE_VALUE ∧
    (((DirectoryIteratorWin.new ⟨"nope".toList⟩).start (SysWin.boot [])).2.destroy
      ((DirectoryIteratorWin.new ⟨"nope".toList⟩).start (SysWin.boot [])).1).closes =
      [INVALID_HANDLE_VALUE] ∧
    ((DirectoryIteratorWin.new ⟨"nope".toList⟩).destroy (SysWin.boot [])).closes = [] := by
  decide

/-! ## Recursive create -/

theorem rfind_lt (c : Char) : ∀ (s : Str) (i : Nat), rfind c s = some i → i < s.length := by
  intro s
  induction s with
  | nil => intro i h; simp [rfind] at h
  | cons x xs ih =>
    intro i h
    rw [rfind] at h
    cases hr : rfind c xs with
    | some j =>
      simp only [hr, Option.some.injEq] at h
      have := ih j hr
      simp only [List.length_cons]
      omega
    | none =>
      simp only [hr] at h
      split at h <;> simp at h
      simp only [List.length_cons]
      omega

theorem rfind_none (c : Char) : ∀ (s : Str), c ∉ s → rfind c s = none := by
  intro s
  induction s with
  | nil => intro _; rfl
  | cons x xs ih =>
    intro h
    simp only [List.mem_cons, not_or] at h
    rw [rfind, ih h.2]
    have : ¬ x = c := fun e => h.1 e.symm
    simp [this]

theorem rfind_append_cons (c : Char) (suf : Str) (hs : c ∉ suf) :
    ∀ pre : Str, rfind c (pre ++ c :: suf) = some pre.length := by
  intro pre
  induction pre with
  | nil => simp [rfind, rfind_none c suf hs]
  | cons x xs ih => simp [rfind, ih]

theorem splitPos_lt (b : Build) (path : Str) (i : Nat) (h : splitPos b path = some i) :
    i < path.length := by
  unfold splitPos at h
  cases hr : rfind '/' path with
  | some j =>
    simp only [hr, Option.some.injEq] at h
    subst h
    exact rfind_lt _ _ _ hr
  | none =>
    simp only [hr] at h
    split at h
    · exact rfind_lt _ _ _ h
    · simp at h

/-- The recursion of `create_directory_recurse` in a build whose `unsigned long` is as
wide as `size_t`, for a path a `std::string` can hold. -/
theorem create_directory_recurse_step (b : Build) (hb : b.ulongBits = b.sizeBits)
    (fuel : Nat) (fs : FS) (path : Str) (hlen : path.length < 2 ^ b.sizeBits) :
    create_directory_recurse b (fuel + 1) fs path =
      (match splitPos b path with
        | some (i + 1) => create_directory_recurse b fuel fs (path.take (i + 1))
        | _ => some ⟨fs, [], []⟩).bind fun r =>
          some ⟨(create_directory b r.fs path).1, r.calls ++ [path],
            r.mkdirs ++ (create_directory b r.fs path).2⟩ := by
  have hpow : 0 < 2 ^ b.sizeBits := by positivity
  have hn : npos b % 2 ^ b.sizeBits = npos b := by
    unfold npos
    exact Nat.mod_eq_of_lt (by omega)
  have hfound : ∀ c i, rfind c path = some i →
      toULong b (rfindSize b c path) = i ∧ i ≠ npos b ∧ i % 2 ^ b.sizeBits = i := by
    intro c i h
    have hi := rfind_lt c path i h
    have him : i % 2 ^ b.sizeBits = i := Nat.mod_eq_of_lt (by omega)
    refine ⟨?_, ?_, him⟩
    · simp [toULong, rfindSize, h, hb, him]
    · unfold npos
      omega
  have hnot : ∀ c, rfind c path = none → toULong b (rfindSize b c path) = npos b := by
    intro c h
    simp [toULong, rfindSize, h, hb, hn]
  rw [create_directory_recurse]
  unfold splitPos
  cases h1 : rfind '/' path with
  | some i =>
    obtain ⟨e1, e2, e3⟩ := hfound '/' i h1
    simp only [e1]
    have hne : (i == npos b) = false := by simpa using e2
    simp only [hne, Bool.and_false, Bool.false_eq_true, if_false]
    cases i with
    | zero => simp
    | succ j =>
      have : (j + 1 != npos b) = true := by simpa using e2
      simp [this, e3]
  | none =>
    have e1 := hnot '/' h1
    simp only [e1]
    by_cases hw : b.windows = true
    · simp only [hw, beq_self_eq_true, Bool.and_self, if_true]
      cases h2 : rfind '\\' path with
      | some i =>
        obtain ⟨f1, f2, f3⟩ := hfound '\\' i h2
        simp only [f1]
        cases i with
        | zero => simp
        | succ j =>
          have : (j + 1 != npos b) = true := by simpa using f2
          simp [this, f3]
      | none =>
        have f1 := hnot '\\' h2
        simp [f1]
    · simp [hw]

theorem rfind_zero_head (c : Char) (s : Str) (h : rfind c s = some 0) : s.head? = some c := by
  cases s with
  | nil => simp [rfind] at h
  | cons x xs =>
    rw [rfind] at h
    cases hr : rfind c xs with
    | some j => simp [hr] at h
    | none =>
      simp only [hr] at h
      split at h
      · simp_all
      · simp at h

/-- On the Windows x64 build `create_directory_recurse` never returns on a path that
does not begin with `/`: when no `/` is left, `pos` is `npos` truncated to 32 bits,
which differs from `npos`, and the recursive call is on the same string. -/
theorem create_directory_recurse_win64_none :
    ∀ (fuel : Nat) (fs : FS) (path : Str), path.head? ≠ some '/' → path.length < 2 ^ 32 →
      create_directory_recurse win64 fuel fs path = none := by
  intro fuel
  induction fuel with
  | zero => intro fs path _ _; rfl
  | succ n ih =>
    intro fs path hhead hlen
    rw [create_directory_recurse]
    cases h1 : rfind '/' path with
    | none =>
      have e1 : toULong win64 (rfindSize win64 '/' path) = 4294967295 := by
        simp [toULong, rfindSize, h1, npos, win64]
      have e2 : (4294967295 == npos win64) = false := by decide
      have e3 : (4294967295 != npos win64) = true := by decide
      have e4 : List.take (4294967295 % 2 ^ win64.sizeBits) path = path := by
        apply List.take_of_length_le
        have : 4294967295 % 2 ^ win64.sizeBits = 4294967295 := by decide
        omega
      simp only [e1, e2, e3, e4, Bool.and_false, Bool.false_eq_true, if_false, Bool.true_and,
        bne_iff_ne, ne_eq, OfNat.ofNat_ne_zero, not_false_eq_true, decide_True, if_true,
        ih fs path hhead hlen, Option.bind_none, Option.none_bind]
    | some i =>
      have hi := rfind_lt _ _ _ h1
      have hi0 : i ≠ 0 := by
        intro h0
        subst h0
        exact hhead (rfind_zero_head _ _ h1)
      have hm : i % 2 ^ 32 = i := Nat.mod_eq_of_lt (by omega)
      have hm2 : i % 2 ^ 64 = i := Nat.mod_eq_of_lt (by omega)
      have e1 : toULong win64 (rfindSize win64 '/' path) = i := by
        simp only [toULong, rfindSize, h1, win64]
        omega
      have e2 : (i == npos win64) = false := by
        simp [npos, win64]
        omega
      have e3 : (i != npos win64) = true := by
        simp [npos, win64]
        omega
      have e5 : (i != 0) = true := by simpa using hi0
      have e4 : i % 2 ^ win64.sizeBits = i := hm2
      have hrec := ih fs (path.take i) (by
        cases path with
        | nil => simp at hi
        | cons x xs =>
          cases i with
          | zero => exact absurd rfl hi0
          | succ j => simpa using hhead) (by
        simp only [List.length_take]
        omega)
      simp only [e1, e2, e3, e4, e5, Bool.and_false, Bool.false_eq_true, if_false, Bool.and_self,
        if_true, hrec, Option.bind_none, Option.none_bind]

/-- C10: on the Windows x64 build (`unsigned long` 32 bits, `size_t` 64 bits) the path
`a`, which has no separator, makes `create_directory_recurse` call itself on `a`
again without end: no amount of fuel lets it return, and `create_directory` is never
invoked; so does the path `a/b/c`.  On the Linux build the same paths return, with
`create_directory` invoked on `a` only, respectively on `a`, `a/b`, `a/b/c`. -/
theorem create_directory_recurse_win64_diverges :
    (∀ fuel fs, create_directory_recurse win64 fuel fs "a".toList = none) ∧
    (∀ fuel fs, create_directory_recurse win64 fuel fs "a/b/c".toList = none) ∧
    (create_directory_recurse linux64 2 [] "a".toList).map (fun r => r.calls) =
      some ["a".toList] ∧
    (create_directory_recurse linux64 4 [] "a/b/c".toList).map (fun r => r.calls) =
      some ["a".toList, "a/b".toList, "a/b/c".toList] := by
  refine ⟨?_, ?_, by decide, by decide⟩
  · intro fuel fs
    exact create_directory_recurse_win64_none fuel fs _ (by decide) (by decide)
  · intro fuel fs
    exact create_directory_recurse_win64_none fuel fs _ (by decide) (by decide)

theorem isDir_pathExists (fs : FS) (p : Str) (h : isDir fs p = true) : pathExists fs p = true := by
  unfold isDir at h
  unfold pathExists
  simp only [List.any_eq_true, Bool.and_eq_true] at h ⊢
  obtain ⟨e, he, h1, _⟩ := h
  exact ⟨e, he, h1⟩

theorem create_directory_of_isDir (b : Build) (fs : FS) (p : Str) (h : isDir fs p = true) :
    create_directory b fs p = (fs, []) := by
  unfold create_directory
  by_cases hw : b.windows = true
  · simp [hw, isDir_pathExists fs p h]
  · simp [hw, opendir, h]

/-- In a build whose `unsigned long` is as wide as `size_t`, `create_directory_recurse`
returns when given more fuel than the path is long; the `create_directory`
invocations end with the full path, each of them is a strictly shorter prefix of the
next, and there is just the one on the full path when the path has no separator or
its separator is at index 0. -/
theorem create_directory_recurse_calls (b : Build) (hb : b.ulongBits = b.sizeBits) :
    ∀ (fuel : Nat) (fs : FS) (path : Str), path.length < fuel →
      path.length < 2 ^ b.sizeBits →
      ∃ r, create_directory_recurse b fuel fs path = some r ∧
        r.calls.getLast? = some path ∧
        List.Chain' (fun p q => p <+: q ∧ p.length < q.length) r.calls ∧
        ((splitPos b path = none ∨ splitPos b path = some 0) → r.calls = [path]) ∧
        (∀ i, splitPos b path = some (i + 1) →
          ∃ r0, create_directory_recurse b (fuel - 1) fs (path.take (i + 1)) = some r0 ∧
            r.calls = r0.calls ++ [path]) := by
  intro fuel
  induction fuel with
  | zero => intro fs path h; omega
  | succ n ih =>
    intro fs path hfuel hlen
    rw [create_directory_recurse_step b hb n fs path hlen]
    cases hs : splitPos b path with
    | none => simp
    | some i =>
      cases i with
      | zero => simp
      | succ j =>
        have hj := splitPos_lt b path (j + 1) hs
        have hlt : (path.take (j + 1)).length < path.length := by
          simp only [List.length_take]
          omega
        have hlen2 : (path.take (j + 1)).length = j + 1 := by
          simp only [List.length_take]
          omega
        obtain ⟨r0, hr0, hlast, hchain, _, _⟩ :=
          ih fs (path.take (j + 1)) (by omega) (by omega)
        simp only [hr0, Option.some_bind, Option.some.injEq, exists_eq_left', reduceCtorEq,
          false_or, Nat.add_one_sub_one]
        refine ⟨by simp, ?_, by simp, ?_⟩
        · rw [List.chain'_append]
          refine ⟨hchain, List.chain'_singleton _, ?_⟩
          intro x hx y hy
          rw [hlast] at hx
          simp only [Option.mem_def, Option.some.injEq, List.head?_cons] at hx hy
          subst hx hy
          exact ⟨List.take_prefix _ _, hlt⟩
        · intro i hi
          have : i = j := by omega
          subst this
          exact ⟨r0, hr0, rfl⟩

/-- The recursive create on a table in which every prefix it visits is a directory:
nothing is created and the table is returned as it was. -/
theorem create_directory_recurse_noop (b : Build) (hb : b.ulongBits = b.sizeBits) :
    ∀ (fuel : Nat) (fs0 fs : FS) (path : Str) (r1 : CreateRun),
      path.length < 2 ^ b.sizeBits →
      create_directory_recurse b fuel fs0 path = some r1 →
      (∀ p ∈ r1.calls, isDir fs p = true) →
      create_directory_recurse b fuel fs path = some ⟨fs, r1.calls, []⟩ := by
  intro fuel
  induction fuel with
  | zero => intro fs0 fs path r1 _ h; simp [create_directory_recurse] at h
  | succ n ih =>
    intro fs0 fs path r1 hlen h1 hall
    rw [create_directory_recurse_step b hb n _ path hlen] at h1 ⊢
    cases hs : splitPos b path with
    | none =>
      simp only [hs, Option.some_bind, Option.some.injEq, List.nil_append] at h1 ⊢
      subst h1
      have hd := hall path (by simp)
      simp [create_directory_of_isDir b fs path hd]
    | some i =>
      cases i with
      | zero =>
        simp only [hs, Option.some_bind, Option.some.injEq, List.nil_append] at h1 ⊢
        subst h1
        have hd := hall path (by simp)
        simp [create_directory_of_isDir b fs path hd]
      | succ j =>
        simp only [hs] at h1 ⊢
        cases hr : create_directory_recurse b n fs0 (path.take (j + 1)) with
        | none => simp [hr] at h1
        | some r0 =>
          simp only [hr, Option.some_bind, Option.some.injEq] at h1
          subst h1
          have hj := splitPos_lt b path (j + 1) hs
          have hrec := ih fs0 fs (path.take (j + 1)) r0 (by
            simp only [List.length_take]
            omega) hr (fun p hp => hall p (by simp [hp]))
          have hd := hall path (by simp)
          simp [hrec, create_directory_of_isDir b fs path hd]

theorem joinSegs_snoc (s : Str) (rest : List Str) (t : Str) :
    joinSegs s (rest ++ [t]) = joinSegs s rest ++ '/' :: t := by
  simp [joinSegs, List.foldl_append]

theorem pathPrefixes_snoc (rest : List Str) (t : Str) :
    ∀ s : Str, pathPrefixes s (rest ++ [t]) = pathPrefixes s rest ++ [joinSegs s (rest ++ [t])] := by
  induction rest with
  | nil => intro s; simp [pathPrefixes, joinSegs]
  | cons u us ih =>
    intro s
    show pathPrefixes s (u :: (us ++ [t])) = pathPrefixes s (u :: us) ++ [joinSegs s (u :: (us ++ [t]))]
    rw [pathPrefixes, pathPrefixes, ih (s ++ '/' :: u)]
    simp [joinSegs]

theorem length_le_joinSegs (rest : List Str) :
    ∀ s : Str, s.length ≤ (joinSegs s rest).length := by
  induction rest with
  | nil => intro s; simp [joinSegs]
  | cons u us ih =>
    intro s
    have h := ih (s ++ '/' :: u)
    simp only [List.length_append, List.length_cons] at h
    simp only [joinSegs, List.foldl_cons] at h ⊢
    omega

theorem pathPrefixes_length_le (rest : List Str) :
    ∀ (s p : Str), p ∈ pathPrefixes s rest → p.length ≤ (joinSegs s rest).length := by
  induction rest with
  | nil =>
    intro s p hp
    simp only [pathPrefixes, List.mem_singleton] at hp
    subst hp
    simp [joinSegs]
  | cons u us ih =>
    intro s p hp
    simp only [pathPrefixes, List.mem_cons] at hp
    rcases hp with rfl | hp
    · exact length_le_joinSegs (u :: us) p
    · exact ih _ p hp

theorem joinSegs_mem_pathPrefixes (rest : List Str) :
    ∀ s : Str, joinSegs s rest ∈ pathPrefixes s rest := by
  induction rest with
  | nil => intro s; simp [pathPrefixes, joinSegs]
  | cons u us ih =>
    intro s
    simp only [pathPrefixes, List.mem_cons]
    exact Or.inr (ih _)

theorem isDir_append (fs gs : FS) (p : Str) :
    isDir (fs ++ gs) p = (isDir fs p || isDir gs p) := by
  simp [isDir, List.any_append]

theorem pathExists_append (fs gs : FS) (p : Str) :
    pathExists (fs ++ gs) p = (pathExists fs p || pathExists gs p) := by
  simp [pathExists, List.any_append]

theorem isDir_newDirs (ps : List Str) (p : Str) : isDir (newDirs ps) p = decide (p ∈ ps) := by
  induction ps with
  | nil => simp [newDirs, isDir]
  | cons q qs ih =>
    simp only [newDirs, isDir, List.map_cons, List.any_cons] at ih ⊢
    rw [ih]
    by_cases h : q = p
    · simp [h]
    · have : ¬ p = q := fun e => h e.symm
      simp [h, this]

theorem pathExists_newDirs (ps : List Str) (p : Str) :
    pathExists (newDirs ps) p = decide (p ∈ ps) := by
  induction ps with
  | nil => simp [newDirs, pathExists]
  | cons q qs ih =>
    simp only [newDirs, pathExists, List.map_cons, List.any_cons] at ih ⊢
    rw [ih]
    by_cases h : q = p
    · simp [h]
    · have : ¬ p = q := fun e => h e.symm
      simp [h, this]

/-- `create_directory` on Linux for a path that does not exist and whose parent does:
the directory is appended to the table by one `mkdir`. -/
theorem create_directory_new (b : Build) (hw : b.windows = false) (fs : FS) (p : Str)
    (hp : p ≠ []) (hpar : parentExists fs p = true) (hne : pathExists fs p = false) :
    create_directory b fs p = (fs ++ newDirs [p], [p]) := by
  have hd : isDir fs p = false := by
    cases h : isDir fs p with
    | false => rfl
    | true => rw [isDir_pathExists fs p h] at hne; exact absurd hne (by simp)
  simp [create_directory, hw, opendir, hd, mkdir, hp, hpar, hne, newDirs]

theorem create_directory_recurse_fresh (b : Build) (hw : b.windows = false)
    (hb : b.ulongBits = b.sizeBits) (s1 : Str) (h1 : s1 ≠ [] ∧ '/' ∉ s1) (rest : List Str) :
    ∀ (fuel : Nat) (fs : FS), (∀ t ∈ rest, t ≠ [] ∧ '/' ∉ t) →
      (joinSegs s1 rest).length < fuel → (joinSegs s1 rest).length < 2 ^ b.sizeBits →
      (∀ p ∈ pathPrefixes s1 rest, pathExists fs p = false) →
      create_directory_recurse b fuel fs (joinSegs s1 rest) =
        some ⟨fs ++ newDirs (pathPrefixes s1 rest), pathPrefixes s1 rest,
          pathPrefixes s1 rest⟩ := by
  induction rest using List.reverseRecOn with
  | nil =>
    intro fuel fs _ hfuel hlen hnone
    obtain ⟨n, rfl⟩ : ∃ n, fuel = n + 1 := ⟨fuel - 1, by omega⟩
    have hs : splitPos b s1 = none := by
      simp [splitPos, rfind_none '/' s1 h1.2, hw]
    have hpar : parentExists fs s1 = true := by
      simp [parentExists, rfind_none '/' s1 h1.2]
    have hc := create_directory_new b hw fs s1 h1.1 hpar (hnone s1 (by simp [pathPrefixes]))
    rw [create_directory_recurse_step b hb n fs _ hlen]
    simp [joinSegs, hs, hc, pathPrefixes]
  | append_singleton us t ih =>
    intro fuel fs hrest hfuel hlen hnone
    obtain ⟨n, rfl⟩ : ∃ n, fuel = n + 1 := ⟨fuel - 1, by omega⟩
    have ht := hrest t (by simp)
    have hP : joinSegs s1 us ≠ [] := by
      intro h0
      have := length_le_joinSegs us s1
      rw [h0] at this
      have : s1 = [] := List.length_eq_zero.mp (by simpa using this)
      exact h1.1 this
    obtain ⟨m, hm⟩ : ∃ m, (joinSegs s1 us).length = m + 1 :=
      ⟨(joinSegs s1 us).length - 1, by
        have := List.length_pos.mpr hP
        omega⟩
    have hjoin := joinSegs_snoc s1 us t
    have hrf : rfind '/' (joinSegs s1 (us ++ [t])) = some (m + 1) := by
      rw [hjoin, rfind_append_cons '/' t ht.2, hm]
    have hs : splitPos b (joinSegs s1 (us ++ [t])) = some (m + 1) := by
      simp [splitPos, hrf]
    have htake : (joinSegs s1 (us ++ [t])).take (m + 1) = joinSegs s1 us := by
      rw [hjoin, ← hm]
      simp
    have hlen0 : (joinSegs s1 (us ++ [t])).length = m + 1 + 1 + t.length := by
      rw [hjoin]
      simp only [List.length_append, List.length_cons, hm]
      omega
    have hpre := pathPrefixes_snoc us t s1
    have hrec := ih n fs (fun u hu => hrest u (by simp [hu])) (by omega) (by omega)
      (fun p hp => hnone p (by rw [hpre]; simp [hp]))
    rw [create_directory_recurse_step b hb n fs _ hlen, hs]
    simp only [htake, hrec, Option.some_bind]
    have hpar : parentExists (fs ++ newDirs (pathPrefixes s1 us)) (joinSegs s1 (us ++ [t])) =
        true := by
      simp only [parentExists, hrf, htake, isDir_append, isDir_newDirs]
      simp [joinSegs_mem_pathPrefixes us s1]
    have hne : pathExists (fs ++ newDirs (pathPrefixes s1 us)) (joinSegs s1 (us ++ [t])) =
        false := by
      rw [pathExists_append, hnone _ (by rw [hpre]; simp), pathExists_newDirs]
      simp only [Bool.false_or, decide_eq_false_iff_not]
      intro hmem
      have := pathPrefixes_length_le us s1 _ hmem
      omega
    have hne0 : joinSegs s1 (us ++ [t]) ≠ [] := by
      intro h0
      rw [h0] at hlen0
      simp only [List.length_nil] at hlen0
      omega
    rw [create_directory_new b hw _ _ hne0 hpar hne, hpre]
    simp [newDirs]

/-- C3: on the Linux build (and any build without the Windows branch whose `unsigned
long` is as wide as `size_t`), for every relative path `s1/s2/.../sn` with non-empty,
`/`-free segments, short enough for a `std::string`, none of whose prefixes exists,
`create_directory_recurse` returns and afterwards every prefix `s1`, `s1/s2`, ...,
`s1/.../sn` exists as a directory. -/
theorem create_directory_recurse_creates (b : Build) (hw : b.windows = false)
    (hb : b.ulongBits = b.sizeBits) (fs : FS) (s1 : Str) (rest : List Str)
    (h1 : s1 ≠ [] ∧ '/' ∉ s1) (hrest : ∀ t ∈ rest, t ≠ [] ∧ '/' ∉ t)
    (hlen : (joinSegs s1 rest).length < 2 ^ b.sizeBits)
    (hnone : ∀ p ∈ pathPrefixes s1 rest, pathExists fs p = false) :
    ∃ r, create_directory_recurse b ((joinSegs s1 rest).length + 1) fs (joinSegs s1 rest) =
        some r ∧
      ∀ p ∈ pathPrefixes s1 rest, isDir r.fs p = true := by
  refine ⟨_, create_directory_recurse_fresh b hw hb s1 h1 rest _ fs hrest (by omega) hlen hnone,
    ?_⟩
  intro p hp
  simp [isDir_append, isDir_newDirs, hp]

/-- C3, witness: `a/b/c` on the empty table yields `a`, `a/b` and `a/b/c`. -/
theorem create_directory_recurse_creates_witness :
    pathPrefixes "a".toList ["b".toList, "c".toList] =
      ["a".toList, "a/b".toList, "a/b/c".toList] ∧
    ∃ r, create_directory_recurse linux64 6 [] "a/b/c".toList = some r ∧
      ∀ p ∈ ["a".toList, "a/b".toList, "a/b/c".toList], isDir r.fs p = true :=
  ⟨by decide,
    create_directory_recurse_creates linux64 rfl rfl [] "a".toList ["b".toList, "c".toList]
      (by decide) (by decide) (by decide) (by decide)⟩

/-- C8: in a build whose `unsigned long` is as wide as `size_t`, for a path a
`std::string` can hold, `create_directory_recurse` returns, visiting the prefixes
`r1.calls`; on every table in which each visited prefix already exists as a
directory the call issues no native creation call and returns the table unchanged;
in particular, when the prefixes all exist after a first call, a second call right
after it changes nothing, so the state after two calls is the state after one. -/
theorem create_directory_recurse_idempotent (b : Build) (hb : b.ulongBits = b.sizeBits)
    (fs0 : FS) (path : Str) (hlen : path.length < 2 ^ b.sizeBits) :
    ∃ r1, create_directory_recurse b (path.length + 1) fs0 path = some r1 ∧
      (∀ fs, (∀ p ∈ r1.calls, isDir fs p = true) →
        create_directory_recurse b (path.length + 1) fs path = some ⟨fs, r1.calls, []⟩) ∧
      ((∀ p ∈ r1.calls, isDir r1.fs p = true) →
        create_directory_recurse b (path.length + 1) r1.fs path =
          some ⟨r1.fs, r1.calls, []⟩) := by
  obtain ⟨r1, h1, _⟩ :=
    create_directory_recurse_calls b hb (path.length + 1) fs0 path (by omega) hlen
  have key := fun fs => create_directory_recurse_noop b hb (path.length + 1) fs0 fs path r1 hlen h1
  exact ⟨r1, h1, key, key r1.fs⟩

/-- C8, witness: on the Linux build, `a/b/c` on the empty table creates `a`, `a/b`,
`a/b/c`; the second call issues no `mkdir` and returns the same table. -/
theorem create_directory_recurse_idempotent_witness :
    ∃ r1, create_directory_recurse linux64 6 [] "a/b/c".toList = some r1 ∧
      r1.mkdirs = ["a".toList, "a/b".toList, "a/b/c".toList] ∧
      create_directory_recurse linux64 6 r1.fs "a/b/c".toList = some ⟨r1.fs, r1.calls, []⟩ := by
  obtain ⟨r1, h1, _, h3⟩ :=
    create_directory_recurse_idempotent linux64 rfl [] "a/b/c".toList (by decide)
  have hrun : create_directory_recurse linux64 6 [] "a/b/c".toList =
      some ⟨newDirs ["a".toList, "a/b".toList, "a/b/c".toList],
        ["a".toList, "a/b".toList, "a/b/c".toList],
        ["a".toList, "a/b".toList, "a/b/c".toList]⟩ := by decide
  have hr : r1 = ⟨newDirs ["a".toList, "a/b".toList, "a/b/c".toList],
        ["a".toList, "a/b".toList, "a/b/c".toList],
        ["a".toList, "a/b".toList, "a/b/c".toList]⟩ :=
    Option.some.inj (h1.symm.trans hrun)
  refine ⟨r1, h1, by rw [hr], h3 ?_⟩
  rw [hr]
  decide

/-! ## Paths -/

theorem under_iff (sep : Char) (d p : Str) :
    under sep d p = true ↔ ∃ t, p = d ++ sep :: t := by
  unfold under
  rw [List.isPrefixOf_iff_prefix]
  constructor
  · rintro ⟨t, ht⟩
    exact ⟨t, by simp [← ht]⟩
  · rintro ⟨t, ht⟩
    exact ⟨t, by simp [ht]⟩

theorem childName_eq_some (sep : Char) (d p n : Str) :
    childName sep d p = some n ↔ p = d ++ sep :: n ∧ n ≠ [] ∧ sep ∉ n := by
  unfold childName
  constructor
  · intro h
    split at h
    · rename_i hu
      obtain ⟨t, ht⟩ := (under_iff sep d p).mp hu
      subst ht
      have hdrop : List.drop (d.length + 1) (d ++ sep :: t) = t := by
        rw [List.drop_append_eq_append_drop]
        simp
      rw [hdrop] at h
      dsimp only at h
      split at h
      · rename_i hv
        simp only [Option.some.injEq] at h
        subst h
        exact ⟨rfl, hv.1, hv.2⟩
      · simp at h
    · simp at h
  · rintro ⟨rfl, h1, h2⟩
    have hu : under sep d (d ++ sep :: n) = true := (under_iff sep d _).mpr ⟨n, rfl⟩
    have hdrop : List.drop (d.length + 1) (d ++ sep :: n) = n := by
      rw [List.drop_append_eq_append_drop]
      simp
    simp [hu, hdrop, h1, h2]

theorem under_trans (sep : Char) (d c p : Str) (h1 : under sep d c = true)
    (h2 : under sep c p = true) : under sep d p = true := by
  obtain ⟨t, rfl⟩ := (under_iff sep d c).mp h1
  obtain ⟨u, rfl⟩ := (under_iff sep _ p).mp h2
  exact (under_iff sep d _).mpr ⟨t ++ sep :: u, by simp⟩

theorem atOrUnder_iff (sep : Char) (d p : Str) :
    atOrUnder sep d p = true ↔ p = d ∨ under sep d p = true := by
  simp [atOrUnder]

theorem under_of_atOrUnder (sep : Char) (d c p : Str) (h1 : under sep d c = true)
    (h2 : atOrUnder sep c p = true) : under sep d p = true := by
  rcases (atOrUnder_iff sep c p).mp h2 with rfl | h
  · exact h1
  · exact under_trans sep d c p h1 h

theorem under_length (sep : Char) (d p : Str) (h : under sep d p = true) :
    d.length < p.length := by
  obtain ⟨t, rfl⟩ := (under_iff sep d p).mp h
  simp only [List.length_append, List.length_cons]
  omega

theorem not_under_self (sep : Char) (d : Str) : under sep d d = false := by
  cases h : under sep d d with
  | false => rfl
  | true =>
    have := under_length sep d d h
    omega

/-- Two names without separator that head the same path are equal. -/
theorem name_unique (sep : Char) :
    ∀ (n m x y : Str), sep ∉ n → sep ∉ m → (x = [] ∨ ∃ t, x = sep :: t) →
      (y = [] ∨ ∃ t, y = sep :: t) → n ++ x = m ++ y → n = m := by
  intro n
  induction n with
  | nil =>
    intro m x y _ hm hx hy h
    cases m with
    | nil => rfl
    | cons b m1 =>
      simp only [List.nil_append, List.cons_append] at h
      rcases hx with rfl | ⟨t, rfl⟩
      · simp at h
      · simp only [List.cons.injEq] at h
        exact absurd (by simp [h.1]) hm
  | cons a n1 ih =>
    intro m x y hn hm hx hy h
    cases m with
    | nil =>
      simp only [List.nil_append, List.cons_append] at h
      rcases hy with rfl | ⟨t, rfl⟩
      · simp at h
      · simp only [List.cons.injEq] at h
        exact absurd (by simp [h.1]) hn
    | cons b m1 =>
      simp only [List.cons_append, List.cons.injEq] at h
      simp only [List.mem_cons, not_or] at hn hm
      rw [h.1, ih m1 x y hn.2 hm.2 hx hy h.2]

theorem atOrUnder_child_iff (sep : Char) (d n p : Str) :
    atOrUnder sep (d ++ sep :: n) p = true ↔
      ∃ x, (x = [] ∨ ∃ t, x = sep :: t) ∧ p = d ++ sep :: (n ++ x) := by
  rw [atOrUnder_iff, under_iff]
  constructor
  · rintro (rfl | ⟨t, rfl⟩)
    · exact ⟨[], Or.inl rfl, by simp⟩
    · exact ⟨sep :: t, Or.inr ⟨t, rfl⟩, by simp⟩
  · rintro ⟨x, (rfl | ⟨t, rfl⟩), rfl⟩
    · exact Or.inl (by simp)
    · exact Or.inr ⟨t, by simp⟩

/-- The subtrees of two different direct entries of `d` share no path. -/
theorem child_disjoint (sep : Char) (d n m p : Str) (hn : sep ∉ n) (hm : sep ∉ m)
    (h1 : atOrUnder sep (d ++ sep :: n) p = true)
    (h2 : atOrUnder sep (d ++ sep :: m) p = true) : n = m := by
  obtain ⟨x, hx, rfl⟩ := (atOrUnder_child_iff sep d n p).mp h1
  obtain ⟨y, hy, h⟩ := (atOrUnder_child_iff sep d m _).mp h2
  have h3 : n ++ x = m ++ y := by
    have := List.append_cancel_left h
    simpa using this
  exact name_unique sep n m x y hn hm hx hy h3

theorem atOrUnder_child_ne (sep : Char) (d n p : Str)
    (h : atOrUnder sep (d ++ sep :: n) p = true) : p ≠ d := by
  obtain ⟨x, _, rfl⟩ := (atOrUnder_child_iff sep d n p).mp h
  intro h0
  have := congrArg List.length h0
  simp only [List.length_append, List.length_cons] at this
  omega

theorem atOrUnder_child_under (sep : Char) (d n p : Str)
    (h : atOrUnder sep (d ++ sep :: n) p = true) : under sep d p = true := by
  obtain ⟨x, _, rfl⟩ := (atOrUnder_child_iff sep d n p).mp h
  exact (under_iff sep d _).mpr ⟨_, rfl⟩

/-- The directory part of a path beneath `c` is `c` or lies beneath `c`. -/
theorem parent_atOrUnder (sep : Char) (c q m p : Str) (hm : sep ∉ m) (hp : p = q ++ sep :: m)
    (hu : under sep c p = true) : atOrUnder sep c q = true := by
  obtain ⟨t, ht⟩ := (under_iff sep c p).mp hu
  rw [hp] at ht
  rw [atOrUnder_iff, under_iff]
  rcases List.append_eq_append_iff.mp ht with ⟨a, h1, h2⟩ | ⟨a, h1, h2⟩
  · cases a with
    | nil =>
      simp only [List.append_nil] at h1
      exact Or.inl h1.symm
    | cons x a1 =>
      simp only [List.cons_append, List.cons.injEq] at h2
      exfalso
      apply hm
      rw [h2.2]
      simp
  · cases a with
    | nil =>
      simp only [List.append_nil] at h1
      exact Or.inl h1
    | cons x a1 =>
      simp only [List.cons_append, List.cons.injEq] at h2
      obtain ⟨hx, _⟩ := h2
      subst hx
      exact Or.inr ⟨a1, h1⟩

/-! ## Recursive remove, Linux branch: every run -/

theorem removedBy_nil (p : Str) : removedBy [] p = false := rfl

theorem removedBy_append (t1 t2 : List Call) (p : Str) :
    removedBy (t1 ++ t2) p = (removedBy t1 p || removedBy t2 p) := by
  simp [removedBy, List.any_append]

theorem removedBy_cons (c : Call) (t : List Call) (p : Str) :
    removedBy (c :: t) p = ((c.ok && c.path == p) || removedBy t p) := by
  simp [removedBy]

theorem filter_removedBy_append (fs : FS) (t1 t2 : List Call) :
    (fs.filter (fun e => !removedBy t1 e.path)).filter (fun e => !removedBy t2 e.path) =
      fs.filter (fun e => !removedBy (t1 ++ t2) e.path) := by
  rw [List.filter_filter]
  apply List.filter_congr
  intro e _
  rw [removedBy_append]
  cases removedBy t1 e.path <;> cases removedBy t2 e.path <;> rfl

theorem rmdir_cases (sep : Char) (fs : FS) (d : Str) :
    ((rmdir sep fs d).1 = 0 ∧ (rmdir sep fs d).2 = erasePath fs d ∧ isDir fs d = true ∧
        isEmptyDir sep fs d = true ∧ isLocked fs d = false) ∨
      ((rmdir sep fs d).1 ≠ 0 ∧ (rmdir sep fs d).2 = fs) := by
  unfold rmdir
  split
  · rename_i h
    simp only [Bool.and_eq_true, Bool.not_eq_true'] at h
    exact Or.inl ⟨rfl, rfl, h.1.1, h.1.2, h.2⟩
  · exact Or.inr ⟨by simp, rfl⟩

theorem remove_cases (sep : Char) (fs : FS) (p : Str) :
    ((remove sep fs p).1 = 0 ∧ (remove sep fs p).2 = erasePath fs p) ∨
      ((remove sep fs p).1 ≠ 0 ∧ (remove sep fs p).2 = fs) := by
  unfold remove
  split
  · rcases rmdir_cases sep fs p with ⟨h1, h2, _⟩ | h
    · exact Or.inl ⟨h1, h2⟩
    · exact Or.inr h
  · split
    · exact Or.inl ⟨rfl, rfl⟩
    · exact Or.inr ⟨by simp, rfl⟩

theorem erasePath_eq_filter (fs : FS) (op : NativeOp) (p : Str) :
    erasePath fs p = fs.filter (fun e => !removedBy [⟨op, p, true⟩] e.path) := by
  unfold erasePath
  apply List.filter_congr
  intro e _
  simp only [removedBy, List.any_cons, List.any_nil, Bool.true_and, Bool.or_false]
  by_cases h : e.path = p
  · simp [h]
  · have : ¬ p = e.path := fun x => h x.symm
    simp [h, this]

theorem filter_removedBy_failed (fs : FS) (op : NativeOp) (p : Str) :
    fs = fs.filter (fun e => !removedBy [⟨op, p, false⟩] e.path) := by
  simp [removedBy]

theorem dropLast_append_ok (t1 t2 : List Call) (h1 : ∀ c ∈ t1, c.ok = true)
    (h2 : ∀ c ∈ t2.dropLast, c.ok = true) : ∀ c ∈ (t1 ++ t2).dropLast, c.ok = true := by
  intro c hc
  by_cases h : t2 = []
  · subst h
    simp only [List.append_nil] at hc
    exact h1 c (List.dropLast_subset _ hc)
  · rw [List.dropLast_append_of_ne_nil _ h] at hc
    rcases List.mem_append.mp hc with hc | hc
    · exact h1 c hc
    · exact h2 c hc

/-- The loop keeps the invariant when the recursive call does; the calls it issues are
on paths beneath `directory`. -/
theorem removeLoop_inv (recurse : FS → Str → Option RemoveRun) (directory : Str)
    (hrec : ∀ fs d r, recurse fs d = some r → RunInv (atOrUnder '/' d) fs r) :
    ∀ (recs : List Dirent) (cur : FS) (q : RemoveRun),
      removeLoop recurse directory recs cur = some q →
      RunInv (under '/' directory) cur q := by
  intro recs
  induction recs with
  | nil =>
    intro cur q h
    simp only [removeLoop, Option.some.injEq] at h
    subst h
    exact ⟨by simp [removedBy], by simp, by simp, by simp⟩
  | cons entry rest ih =>
    intro cur q h
    rw [removeLoop] at h
    split at h
    · exact ih cur q h
    · have hsub : ∀ p, atOrUnder '/' (directory ++ '/' :: entry.d_name) p = true →
          under '/' directory p = true := fun p hp => atOrUnder_child_under '/' _ _ p hp
      dsimp only at h
      split at h
      · cases hr : recurse cur (directory ++ '/' :: entry.d_name) with
        | none => simp [hr] at h
        | some r =>
          obtain ⟨i1, i2, i3, i4⟩ := hrec _ _ r hr
          simp only [hr] at h
          split at h
          · simp only [Option.some.injEq] at h
            subst h
            exact ⟨i1, fun c hc => hsub _ (i2 c hc), i3, fun hres => by simp_all⟩
          · rename_i hres
            have hres1 : r.result = true := by simpa using hres
            cases hq : removeLoop recurse directory rest r.fs with
            | none => simp [hq] at h
            | some q1 =>
              obtain ⟨j1, j2, j3, j4⟩ := ih r.fs q1 hq
              simp only [hq, Option.map_some', Option.some.injEq] at h
              subst h
              refine ⟨?_, ?_, ?_, ?_⟩
              · show q1.fs = _
                rw [j1, i1, filter_removedBy_append]
              · intro c hc
                rcases List.mem_append.mp hc with hc | hc
                · exact hsub _ (i2 c hc)
                · exact j2 c hc
              · exact dropLast_append_ok _ _ (i4 hres1) j3
              · intro hres2 c hc
                rcases List.mem_append.mp hc with hc | hc
                · exact i4 hres1 c hc
                · exact j4 hres2 c hc
      · have hu : under '/' directory (directory ++ '/' :: entry.d_name) = true :=
          (under_iff _ _ _).mpr ⟨_, rfl⟩
        rcases remove_cases '/' cur (directory ++ '/' :: entry.d_name) with ⟨h1, h2⟩ | ⟨h1, h2⟩
        · simp only [h1, ne_eq, not_true_eq_false, if_false, h2] at h
          cases hq : removeLoop recurse directory rest
              (erasePath cur (directory ++ '/' :: entry.d_name)) with
          | none => simp [hq] at h
          | some q1 =>
            obtain ⟨j1, j2, j3, j4⟩ := ih _ q1 hq
            simp only [hq, Option.map_some', Option.some.injEq] at h
            subst h
            refine ⟨?_, ?_, ?_, ?_⟩
            · show q1.fs = _
              rw [j1, erasePath_eq_filter cur NativeOp.remove, filter_removedBy_append]
              rfl
            · intro c hc
              rcases List.mem_cons.mp hc with rfl | hc
              · exact hu
              · exact j2 c hc
            · exact dropLast_append_ok [_] _ (by simp) j3
            · intro hres2 c hc
              rcases List.mem_cons.mp hc with rfl | hc
              · rfl
              · exact j4 hres2 c hc
        · simp only [h1, ne_eq, not_false_eq_true, if_true, h2, Option.some.injEq] at h
          subst h
          exact ⟨filter_removedBy_failed cur _ _, by simpa using hu, by simp, by simp⟩

/-- Every run of `remove_directory_recurse` that returns satisfies the invariant, the
calls being on `directory` or beneath it. -/
theorem remove_directory_recurse_inv :
    ∀ (fuel : Nat) (fs : FS) (directory : Str) (r : RemoveRun),
      remove_directory_recurse fuel fs directory = some r →
      RunInv (atOrUnder '/' directory) fs r := by
  intro fuel
  induction fuel with
  | zero => intro fs d r h; simp [remove_directory_recurse] at h
  | succ n ih =>
    intro fs d r h
    rw [remove_directory_recurse] at h
    cases ho : opendir fs d with
    | none =>
      simp only [ho, Option.some.injEq] at h
      subst h
      exact ⟨by simp [removedBy], by simp, by simp, by simp⟩
    | some dir =>
      simp only [ho] at h
      cases hl : removeLoop (remove_directory_recurse n) d dir fs with
      | none => simp [hl] at h
      | some q =>
        obtain ⟨j1, j2, j3, j4⟩ := removeLoop_inv _ d (fun fs d r hr => ih fs d r hr) dir fs q hl
        have hsub : ∀ c ∈ q.trace, atOrUnder '/' d c.path = true := fun c hc =>
          (atOrUnder_iff _ _ _).mpr (Or.inr (j2 c hc))
        have hself : atOrUnder '/' d d = true := (atOrUnder_iff _ _ _).mpr (Or.inl rfl)
        simp only [hl] at h
        split at h
        · simp only [Option.some.injEq] at h
          subst h
          exact ⟨j1, hsub, j3, j4⟩
        · rename_i hres
          have hres1 : q.result = true := by simpa using hres
          rcases rmdir_cases '/' q.fs d with ⟨h1, h2, _⟩ | ⟨h1, h2⟩
          · simp only [h1, ne_eq, not_true_eq_false, if_false, h2, Option.some.injEq] at h
            subst h
            refine ⟨?_, ?_, ?_, ?_⟩
            · show erasePath q.fs d = _
              rw [erasePath_eq_filter q.fs NativeOp.rmdir, j1, filter_removedBy_append]
            · intro c hc
              rcases List.mem_append.mp hc with hc | hc
              · exact hsub c hc
              · simp only [List.mem_singleton] at hc
                subst hc
                exact hself
            · exact dropLast_append_ok _ _ (j4 hres1) (by simp)
            · intro _ c hc
              rcases List.mem_append.mp hc with hc | hc
              · exact j4 hres1 c hc
              · simp only [List.mem_singleton] at hc
                subst hc
                rfl
          · simp only [h1, ne_eq, not_false_eq_true, if_true, h2, Option.some.injEq] at h
            subst h
            refine ⟨?_, ?_, ?_, ?_⟩
            · show q.fs = _
              rw [← filter_removedBy_append, ← j1]
              exact filter_removedBy_failed q.fs _ _
            · intro c hc
              rcases List.mem_append.mp hc with hc | hc
              · exact hsub c hc
              · simp only [List.mem_singleton] at hc
                subst hc
                exact hself
            · exact dropLast_append_ok _ _ (j4 hres1) (by simp)
            · intro hf
              simp at hf

/-! ## Well-formed tables -/

theorem parentClosed_iff (sep : Char) (fs : FS) (d : Str) :
    parentClosed sep fs d = true ↔
      ∀ e ∈ fs, under sep d e.path = true →
        ∃ q ∈ fs, q.kind = Kind.dir ∧
          ∃ m, e.path = q.path ++ sep :: m ∧ m ≠ [] ∧ sep ∉ m ∧ isDotName m = false := by
  unfold parentClosed
  simp only [List.all_eq_true, Bool.or_eq_true, Bool.not_eq_true', List.any_eq_true,
    Bool.and_eq_true, beq_iff_eq]
  constructor
  · intro h e he hu
    rcases h e he with h1 | ⟨q, hq, hk, hm⟩
    · rw [hu] at h1
      exact absurd h1 (by simp)
    · cases hc : childName sep q.path e.path with
      | none => simp [hc] at hm
      | some n =>
        simp only [hc, Bool.not_eq_true'] at hm
        obtain ⟨h1, h2, h3⟩ := (childName_eq_some sep _ _ n).mp hc
        exact ⟨q, hq, hk, n, h1, h2, h3, hm⟩
  · intro h e he
    cases hu : under sep d e.path with
    | false => exact Or.inl rfl
    | true =>
      obtain ⟨q, hq, hk, m, h1, h2, h3, h4⟩ := h e he hu
      refine Or.inr ⟨q, hq, hk, ?_⟩
      have hc : childName sep q.path e.path = some m :=
        (childName_eq_some sep _ _ m).mpr ⟨h1, h2, h3⟩
      simp [hc, h4]

theorem isDir_iff (fs : FS) (p : Str) :
    isDir fs p = true ↔ ∃ e ∈ fs, e.path = p ∧ e.kind = Kind.dir := by
  simp [isDir]

theorem isFile_iff (fs : FS) (p : Str) :
    isFile fs p = true ↔ ∃ e ∈ fs, e.path = p ∧ e.kind = Kind.file := by
  simp [isFile]

theorem same_entry (fs : FS) (hu : (fs.map Ent.path).Nodup) (e1 e2 : Ent) (h1 : e1 ∈ fs)
    (h2 : e2 ∈ fs) (h : e1.path = e2.path) : e1 = e2 :=
  List.inj_on_of_nodup_map hu h1 h2 h

/-- The last segment of a path is determined by the path. -/
theorem last_segment_unique (sep : Char) (d q n m : Str) (hn : sep ∉ n) (hm : sep ∉ m)
    (h : d ++ sep :: n = q ++ sep :: m) : d = q ∧ n = m := by
  have hu : under sep d (q ++ sep :: m) = true := (under_iff sep d _).mpr ⟨n, h.symm⟩
  have ha := parent_atOrUnder sep d q m _ hm rfl hu
  rcases (atOrUnder_iff sep d q).mp ha with rfl | hq
  · have := List.append_cancel_left h
    simp only [List.cons.injEq, true_and] at this
    exact ⟨rfl, this⟩
  · obtain ⟨t, rfl⟩ := (under_iff sep d q).mp hq
    exfalso
    apply hn
    have h2 : sep :: n = sep :: (t ++ sep :: m) := by
      have h3 : d ++ sep :: n = d ++ sep :: (t ++ sep :: m) := by
        rw [h]
        simp
      exact List.append_cancel_left h3
    simp only [List.cons.injEq, true_and] at h2
    rw [h2]
    simp

/-- In a parent-closed table every path between `d` and an entry beneath `d` is a
directory of the table. -/
theorem ancestor_isDir (sep : Char) (fs : FS) (d : Str) (hp : parentClosed sep fs d = true) :
    ∀ (k : Nat) (e : Ent), e ∈ fs → e.path.length ≤ k → under sep d e.path = true →
      ∀ c, atOrUnder sep d c = true → under sep c e.path = true → isDir fs c = true := by
  intro k
  induction k with
  | zero =>
    intro e _ hk hu
    have := under_length sep d e.path hu
    omega
  | succ k ih =>
    intro e he hk hu c hc huc
    obtain ⟨q, hq, hkind, m, h1, _, h3, _⟩ := (parentClosed_iff sep fs d).mp hp e he hu
    have ha := parent_atOrUnder sep c q.path m e.path h3 h1 huc
    rcases (atOrUnder_iff sep c q.path).mp ha with hqc | hqc
    · exact (isDir_iff fs c).mpr ⟨q, hq, hqc, hkind⟩
    · have hlen : q.path.length ≤ k := by
        have := congrArg List.length h1
        simp only [List.length_append, List.length_cons] at this
        omega
      have hud : under sep d q.path = true := by
        rcases (atOrUnder_iff sep d c).mp hc with rfl | hdc
        · exact hqc
        · exact under_trans sep d c q.path hdc hqc
      exact ih q hq hlen hud c hc hqc

/-- In a parent-closed table every entry beneath `d` is a direct entry of `d` or lies
beneath one. -/
theorem top_child (sep : Char) (fs : FS) (d : Str) (hp : parentClosed sep fs d = true) :
    ∀ (k : Nat) (e : Ent), e ∈ fs → e.path.length ≤ k → under sep d e.path = true →
      ∃ e0 ∈ fs, ∃ n, childName sep d e0.path = some n ∧ isDotName n = false ∧
        atOrUnder sep e0.path e.path = true := by
  intro k
  induction k with
  | zero =>
    intro e _ hk hu
    have := under_length sep d e.path hu
    omega
  | succ k ih =>
    intro e he hk hu
    obtain ⟨q, hq, _, m, h1, h2, h3, h4⟩ := (parentClosed_iff sep fs d).mp hp e he hu
    have ha := parent_atOrUnder sep d q.path m e.path h3 h1 hu
    rcases (atOrUnder_iff sep d q.path).mp ha with hqd | hqd
    · refine ⟨e, he, m, (childName_eq_some sep d e.path m).mpr ⟨by rw [h1, hqd], h2, h3⟩, h4, ?_⟩
      exact (atOrUnder_iff _ _ _).mpr (Or.inl rfl)
    · have hlen : q.path.length ≤ k := by
        have := congrArg List.length h1
        simp only [List.length_append, List.length_cons] at this
        omega
      obtain ⟨e0, he0, n, hc, hdot, hat⟩ := ih q hq hlen hqd
      refine ⟨e0, he0, n, hc, hdot, (atOrUnder_iff _ _ _).mpr (Or.inr ?_)⟩
      have hqe : under sep q.path e.path = true := (under_iff _ _ _).mpr ⟨m, h1⟩
      rcases (atOrUnder_iff sep e0.path q.path).mp hat with h | h
      · rw [← h]
        exact hqe
      · exact under_trans sep _ _ _ h hqe

theorem mem_childRecords (sep : Char) (fs : FS) (d : Str) (r : Dirent) :
    r ∈ childRecords sep fs d ↔
      ∃ e ∈ fs, childName sep d e.path = some r.d_name ∧ r.d_type = dtypeOf e.kind := by
  unfold childRecords
  simp only [List.mem_filterMap, Option.map_eq_some']
  constructor
  · rintro ⟨e, he, n, hn, rfl⟩
    exact ⟨e, he, hn, rfl⟩
  · rintro ⟨e, he, hn, ht⟩
    refine ⟨e, he, r.d_name, hn, ?_⟩
    cases r
    simp_all

theorem childRecords_names_nodup (sep : Char) (d : Str) :
    ∀ fs : FS, (fs.map Ent.path).Nodup → ((childRecords sep fs d).map Dirent.d_name).Nodup := by
  intro fs
  induction fs with
  | nil => intro _; simp [childRecords]
  | cons e fs ih =>
    intro hu
    simp only [List.map_cons, List.nodup_cons] at hu
    have ih2 := ih hu.2
    cases hc : childName sep d e.path with
    | none =>
      have : childRecords sep (e :: fs) d = childRecords sep fs d := by
        simp [childRecords, List.filterMap_cons, hc]
      rw [this]
      exact ih2
    | some n =>
      have : childRecords sep (e :: fs) d = ⟨n, dtypeOf e.kind⟩ :: childRecords sep fs d := by
        simp [childRecords, List.filterMap_cons, hc]
      rw [this]
      simp only [List.map_cons, List.nodup_cons]
      refine ⟨?_, ih2⟩
      intro hmem
      obtain ⟨r, hr, hrn⟩ := List.mem_map.mp hmem
      obtain ⟨e2, he2, hc2, _⟩ := (mem_childRecords sep fs d r).mp hr
      rw [hrn] at hc2
      have p1 := ((childName_eq_some sep d _ n).mp hc).1
      have p2 := ((childName_eq_some sep d _ n).mp hc2).1
      apply hu.1
      rw [p1, ← p2]
      exact List.mem_map_of_mem _ he2

theorem filter_length_lt {α : Type} (p q : α → Bool) (x : α) :
    ∀ l : List α, (∀ a ∈ l, p a = true → q a = true) → x ∈ l → q x = true → p x = false →
      (l.filter p).length < (l.filter q).length := by
  intro l
  induction l with
  | nil => intro _ hx; simp at hx
  | cons a l ih =>
    intro hpq hx hqx hpx
    have hle : (l.filter p).length ≤ (l.filter q).length := by
      have hmono : ∀ l : List α, (∀ a ∈ l, p a = true → q a = true) →
          (l.filter p).length ≤ (l.filter q).length := by
        intro l
        induction l with
        | nil => intro _; simp
        | cons b l ihl =>
          intro h
          have h2 := ihl (fun a ha => h a (List.mem_cons_of_mem _ ha))
          have hb := h b (List.mem_cons_self _ _)
          cases hpb : p b <;> cases hqb : q b
          all_goals simp_all
          all_goals omega
      exact hmono l (fun a ha => hpq a (List.mem_cons_of_mem _ ha))
    rcases List.mem_cons.mp hx with rfl | hx
    · simp only [List.filter_cons, hqx, hpx, if_true, List.length_cons]
      simp only [Bool.false_eq_true, if_false]
      omega
    · have h2 := ih (fun a ha => hpq a (List.mem_cons_of_mem _ ha)) hx hqx hpx
      have ha := hpq a (List.mem_cons_self _ _)
      cases hpa : p a <;> cases hqa : q a
      all_goals simp_all
      all_goals omega

/-! ## Recursive remove, Linux branch: removable trees -/

theorem unlockedUnder_iff (sep : Char) (fs : FS) (d : Str) :
    unlockedUnder sep fs d = true ↔
      ∀ e ∈ fs, atOrUnder sep d e.path = true → e.locked = false := by
  unfold unlockedUnder
  simp only [List.all_eq_true, Bool.or_eq_true, Bool.not_eq_true']
  constructor
  · intro h e he ha
    rcases h e he with h1 | h1
    · rw [ha] at h1
      exact absurd h1 (by simp)
    · exact h1
  · intro h e he
    cases ha : atOrUnder sep d e.path with
    | false => exact Or.inl rfl
    | true => exact Or.inr (h e he ha)

/-- A record stays fit when the table is filtered by a test that keeps everything
at or beneath the record's path. -/
theorem RecOk_filter (fuel : Nat) (d : Str) (cur : FS) (r : Dirent) (keep : Ent → Bool)
    (h : RecOk fuel d cur r)
    (hkeep : ∀ e ∈ cur, atOrUnder '/' (d ++ '/' :: r.d_name) e.path = true → keep e = true) :
    RecOk fuel d (cur.filter keep) r := by
  obtain ⟨h1, h2, h3, h4, h5⟩ := h
  have hself : ∀ e ∈ cur, e.path = d ++ '/' :: r.d_name → e ∈ cur.filter keep := by
    intro e he hp
    exact List.mem_filter.mpr ⟨he, hkeep e he ((atOrUnder_iff _ _ _).mpr (Or.inl hp))⟩
  refine ⟨h1, h2, h3, ?_, ?_⟩
  · intro ht
    obtain ⟨a1, a2, a3, a4⟩ := h4 ht
    refine ⟨?_, ?_, ?_, ?_⟩
    · obtain ⟨e, he, hp, hk⟩ := (isDir_iff _ _).mp a1
      exact (isDir_iff _ _).mpr ⟨e, hself e he hp, hp, hk⟩
    · rw [parentClosed_iff] at a2 ⊢
      intro e he hu
      have he0 := (List.mem_filter.mp he).1
      obtain ⟨q, hq, hk, m, m1, m2, m3, m4⟩ := a2 e he0 hu
      have hqa := parent_atOrUnder '/' _ q.path m e.path m3 m1 hu
      exact ⟨q, List.mem_filter.mpr ⟨hq, hkeep q hq hqa⟩, hk, m, m1, m2, m3, m4⟩
    · rw [unlockedUnder_iff] at a3 ⊢
      intro e he ha
      exact a3 e (List.mem_filter.mp he).1 ha
    · refine lt_of_le_of_lt ?_ a4
      rw [List.filter_filter]
      have : (cur.filter fun e => (under '/' (d ++ '/' :: r.d_name) e.path && keep e)) =
          (cur.filter fun e => under '/' (d ++ '/' :: r.d_name) e.path).filter keep := by
        rw [List.filter_filter]
        apply List.filter_congr
        intro e _
        exact Bool.and_comm _ _
      rw [this]
      exact List.length_filter_le _ _
  · intro ht
    obtain ⟨a1, a2, a3⟩ := h5 ht
    refine ⟨?_, ?_, ?_⟩
    · obtain ⟨e, he, hp, hk⟩ := (isFile_iff _ _).mp a1
      exact (isFile_iff _ _).mpr ⟨e, hself e he hp, hp, hk⟩
    · cases hd : isDir (cur.filter keep) (d ++ '/' :: r.d_name) with
      | false => rfl
      | true =>
        obtain ⟨e, he, hp, hk⟩ := (isDir_iff _ _).mp hd
        have := (isDir_iff cur _).mpr ⟨e, (List.mem_filter.mp he).1, hp, hk⟩
        rw [a2] at this
        exact absurd this (by simp)
    · cases hl : isLocked (cur.filter keep) (d ++ '/' :: r.d_name) with
      | false => rfl
      | true =>
        simp only [isLocked, List.any_eq_true, Bool.and_eq_true, beq_iff_eq] at hl
        obtain ⟨e, he, hp, hk⟩ := hl
        have : isLocked cur (d ++ '/' :: r.d_name) = true := by
          simp only [isLocked, List.any_eq_true, Bool.and_eq_true, beq_iff_eq]
          exact ⟨e, (List.mem_filter.mp he).1, hp, hk⟩
        rw [a3] at this
        exact absurd this (by simp)

theorem isDotName_false (n : Str) (h : isDotName n = false) :
    ¬ (n = ['.'] ∨ n = ['.', '.']) := by
  simpa [isDotName] using h

theorem nodup_filter_paths (fs : FS) (keep : Ent → Bool) (hu : (fs.map Ent.path).Nodup) :
    ((fs.filter keep).map Ent.path).Nodup :=
  List.Nodup.sublist ((List.filter_sublist fs).map Ent.path) hu

theorem removedBy_true (tr : List Call) (p : Str) (h : removedBy tr p = true) :
    ∃ c ∈ tr, c.ok = true ∧ c.path = p := by
  simpa [removedBy] using h

/-- The loop over fit records with distinct names runs to the end of the stream, and
afterwards the path of each record is gone, with everything beneath it when it is a
directory record. -/
theorem removeLoop_removes (fuel : Nat) (d : Str)
    (ih : ∀ (fs : FS) (c : Str), (fs.map Ent.path).Nodup → isDir fs c = true →
      parentClosed '/' fs c = true → unlockedUnder '/' fs c = true →
      (fs.filter fun e => under '/' c e.path).length < fuel →
      ∃ r, remove_directory_recurse fuel fs c = some r ∧ r.result = true ∧
        ∀ e ∈ r.fs, atOrUnder '/' c e.path = false) :
    ∀ (recs : List Dirent) (cur : FS), (cur.map Ent.path).Nodup →
      (∀ r ∈ recs, RecOk fuel d cur r) → (recs.map Dirent.d_name).Nodup →
      ∃ q, removeLoop (remove_directory_recurse fuel) d recs cur = some q ∧ q.result = true ∧
        ∀ r ∈ recs, ∀ e ∈ q.fs, e.path ≠ d ++ '/' :: r.d_name ∧
          (r.d_type = DT_DIR → atOrUnder '/' (d ++ '/' :: r.d_name) e.path = false) := by
  intro recs
  induction recs with
  | nil =>
    intro cur _ _ _
    exact ⟨⟨true, cur, []⟩, rfl, rfl, by simp⟩
  | cons r recs ihl =>
    intro cur hu hok hnd
    obtain ⟨k1, k2, k3, k4, k5⟩ := hok r (List.mem_cons_self _ _)
    simp only [List.map_cons, List.nodup_cons] at hnd
    have hdot := isDotName_false _ k3
    have hother : ∀ r2 ∈ recs, ∀ p, atOrUnder '/' (d ++ '/' :: r2.d_name) p = true →
        atOrUnder '/' (d ++ '/' :: r.d_name) p = false := by
      intro r2 hr2 p hp
      cases hc : atOrUnder '/' (d ++ '/' :: r.d_name) p with
      | false => rfl
      | true =>
        have k2' := (hok r2 (List.mem_cons_of_mem _ hr2)).2.1
        have := child_disjoint '/' d r.d_name r2.d_name p k2 k2' hc hp
        exact absurd (this ▸ List.mem_map_of_mem Dirent.d_name hr2) hnd.1
    rw [removeLoop]
    simp only [hdot, if_false]
    by_cases ht : r.d_type = DT_DIR
    · obtain ⟨a1, a2, a3, a4⟩ := k4 ht
      obtain ⟨r0, hr0, hres, hgone⟩ := ih cur _ hu a1 a2 a3 a4
      obtain ⟨i1, i2, _, _⟩ := remove_directory_recurse_inv fuel cur _ r0 hr0
      have hok2 : ∀ r2 ∈ recs, RecOk fuel d r0.fs r2 := by
        intro r2 hr2
        rw [i1]
        apply RecOk_filter _ _ _ _ _ (hok r2 (List.mem_cons_of_mem _ hr2))
        intro e _ hat
        cases hrm : removedBy r0.trace e.path with
        | false => rfl
        | true =>
          obtain ⟨c, hc, _, hcp⟩ := removedBy_true _ _ hrm
          have h1 := i2 c hc
          rw [hcp] at h1
          rw [hother r2 hr2 e.path hat] at h1
          exact absurd h1 (by simp)
      have hu2 : (r0.fs.map Ent.path).Nodup := by
        rw [i1]
        exact nodup_filter_paths _ _ hu
      obtain ⟨q1, hq1, hres1, hgone1⟩ := ihl r0.fs hu2 hok2 hnd.2
      obtain ⟨j1, _, _, _⟩ := removeLoop_inv _ d
        (fun fs c x hx => remove_directory_recurse_inv fuel fs c x hx) recs r0.fs q1 hq1
      refine ⟨⟨q1.result, q1.fs, r0.trace ++ q1.trace⟩, ?_, hres1, ?_⟩
      · simp [ht, hr0, hres, hq1]
      · intro r2 hr2 e he
        rcases List.mem_cons.mp hr2 with rfl | hr2
        · have he0 : e ∈ r0.fs := by
            have he' : e ∈ q1.fs := he
            rw [j1] at he'
            exact (List.mem_filter.mp he').1
          have hg := hgone e he0
          refine ⟨?_, fun _ => hg⟩
          intro hp
          have := (atOrUnder_iff '/' (d ++ '/' :: r2.d_name) e.path).mpr (Or.inl hp)
          rw [hg] at this
          exact absurd this (by simp)
        · exact hgone1 r2 hr2 e he
    · obtain ⟨a1, a2, a3⟩ := k5 ht
      have hrem : remove '/' cur (d ++ '/' :: r.d_name) =
          (0, erasePath cur (d ++ '/' :: r.d_name)) := by
        simp [remove, a1, a2, a3]
      have hok2 : ∀ r2 ∈ recs, RecOk fuel d (erasePath cur (d ++ '/' :: r.d_name)) r2 := by
        intro r2 hr2
        apply RecOk_filter _ _ _ _ _ (hok r2 (List.mem_cons_of_mem _ hr2))
        intro e _ hat
        have h1 := hother r2 hr2 e.path hat
        cases hp : (e.path == d ++ '/' :: r.d_name) with
        | false => rfl
        | true =>
          have hp' : e.path = d ++ '/' :: r.d_name := by simpa using hp
          have := (atOrUnder_iff '/' (d ++ '/' :: r.d_name) e.path).mpr (Or.inl hp')
          rw [h1] at this
          exact absurd this (by simp)
      have hu2 : ((erasePath cur (d ++ '/' :: r.d_name)).map Ent.path).Nodup :=
        nodup_filter_paths _ _ hu
      obtain ⟨q1, hq1, hres1, hgone1⟩ := ihl _ hu2 hok2 hnd.2
      obtain ⟨j1, _, _, _⟩ := removeLoop_inv _ d
        (fun fs c x hx => remove_directory_recurse_inv fuel fs c x hx) recs _ q1 hq1
      refine ⟨⟨q1.result, q1.fs, ⟨NativeOp.remove, d ++ '/' :: r.d_name, true⟩ :: q1.trace⟩,
        ?_, hres1, ?_⟩
      · simp [ht, hrem, hq1]
      · intro r2 hr2 e he
        rcases List.mem_cons.mp hr2 with rfl | hr2
        · have he0 : e ∈ erasePath cur (d ++ '/' :: r2.d_name) := by
            have he' : e ∈ q1.fs := he
            rw [j1] at he'
            exact (List.mem_filter.mp he').1
          refine ⟨?_, fun h => absurd h ht⟩
          have := (List.mem_filter.mp he0).2
          simpa using this
        · exact hgone1 r2 hr2 e he

theorem dtypeOf_dir (k : Kind) : dtypeOf k = DT_DIR ↔ k = Kind.dir := by
  cases k <;> simp [dtypeOf, DT_DIR, DT_REG]

/-- The records of the entries of `d` are fit for the loop when the tree at `d` is
well formed, unlocked, and has at most `fuel` entries. -/
theorem childRecords_ok (fuel : Nat) (fs : FS) (d : Str) (hu : (fs.map Ent.path).Nodup)
    (hp : parentClosed '/' fs d = true) (hl : unlockedUnder '/' fs d = true)
    (hn : (fs.filter fun e => under '/' d e.path).length < fuel + 1) :
    ∀ r ∈ childRecords '/' fs d, RecOk fuel d fs r := by
  intro r hr
  obtain ⟨e, he, hc, ht⟩ := (mem_childRecords '/' fs d r).mp hr
  obtain ⟨p1, p2, p3⟩ := (childName_eq_some '/' d e.path r.d_name).mp hc
  have hud : under '/' d e.path = true := (under_iff _ _ _).mpr ⟨_, p1⟩
  have hsub : ∀ p, atOrUnder '/' (d ++ '/' :: r.d_name) p = true → under '/' d p = true :=
    fun p h => atOrUnder_child_under '/' d _ p h
  have hdot : isDotName r.d_name = false := by
    obtain ⟨q, _, _, m, m1, _, m3, m4⟩ := (parentClosed_iff '/' fs d).mp hp e he hud
    rw [p1] at m1
    rw [(last_segment_unique '/' d q.path r.d_name m p3 m3 m1).2]
    exact m4
  refine ⟨p2, p3, hdot, ?_, ?_⟩
  · intro hdir
    have hk : e.kind = Kind.dir := (dtypeOf_dir e.kind).mp (ht ▸ hdir)
    refine ⟨(isDir_iff _ _).mpr ⟨e, he, p1, hk⟩, ?_, ?_, ?_⟩
    · rw [parentClosed_iff] at hp ⊢
      intro e2 he2 hu2
      exact hp e2 he2 (hsub _ ((atOrUnder_iff _ _ _).mpr (Or.inr hu2)))
    · rw [unlockedUnder_iff] at hl ⊢
      intro e2 he2 ha
      exact hl e2 he2 ((atOrUnder_iff _ _ _).mpr (Or.inr (hsub _ ha)))
    · have hlt := filter_length_lt (fun x : Ent => under '/' (d ++ '/' :: r.d_name) x.path)
        (fun x : Ent => under '/' d x.path) e fs
        (fun a _ h => hsub _ ((atOrUnder_iff _ _ _).mpr (Or.inr h))) he hud
        (by show under '/' (d ++ '/' :: r.d_name) e.path = false; rw [p1]; exact not_under_self '/' _)
      omega
  · intro hdir
    have hk : e.kind = Kind.file := by
      cases hk : e.kind with
      | file => rfl
      | dir => exact absurd (ht.trans ((dtypeOf_dir e.kind).mpr hk)) hdir
    refine ⟨(isFile_iff _ _).mpr ⟨e, he, p1, hk⟩, ?_, ?_⟩
    · cases hd : isDir fs (d ++ '/' :: r.d_name) with
      | false => rfl
      | true =>
        obtain ⟨e2, he2, hp2, hk2⟩ := (isDir_iff _ _).mp hd
        have := same_entry fs hu e2 e he2 he (hp2.trans p1.symm)
        rw [this, hk] at hk2
        exact absurd hk2 (by simp)
    · cases hlk : isLocked fs (d ++ '/' :: r.d_name) with
      | false => rfl
      | true =>
        simp only [isLocked, List.any_eq_true, Bool.and_eq_true, beq_iff_eq] at hlk
        obtain ⟨e2, he2, hp2, hk2⟩ := hlk
        have := (unlockedUnder_iff '/' fs d).mp hl e2 he2
          ((atOrUnder_iff _ _ _).mpr (Or.inr (hp2 ▸ (p1 ▸ hud))))
        rw [this] at hk2
        exact absurd hk2 (by simp)

/-- On a well-formed, unlocked tree `remove_directory_recurse` returns `true` with
fuel beyond the number of entries beneath `d`, and no entry at `d` or beneath it is
left. -/
theorem remove_directory_recurse_removes :
    ∀ (fuel : Nat) (fs : FS) (d : Str), (fs.map Ent.path).Nodup → isDir fs d = true →
      parentClosed '/' fs d = true → unlockedUnder '/' fs d = true →
      (fs.filter fun e => under '/' d e.path).length < fuel →
      ∃ r, remove_directory_recurse fuel fs d = some r ∧ r.result = true ∧
        ∀ e ∈ r.fs, atOrUnder '/' d e.path = false := by
  intro fuel
  induction fuel with
  | zero => intro fs d _ _ _ _ h; omega
  | succ n ih =>
    intro fs d hu hd hp hl hn
    have hopen : opendir fs d = some (scanRecords '/' fs d) := by simp [opendir, hd]
    have hskip : removeLoop (remove_directory_recurse n) d (scanRecords '/' fs d) fs =
        removeLoop (remove_directory_recurse n) d (childRecords '/' fs d) fs := by
      simp [scanRecords, removeLoop]
    obtain ⟨q, hq, hres, hgone⟩ := removeLoop_removes n d ih (childRecords '/' fs d) fs hu
      (childRecords_ok n fs d hu hp hl hn) (childRecords_names_nodup '/' d fs hu)
    obtain ⟨j1, j2, _, _⟩ := removeLoop_inv _ d
      (fun fs c x hx => remove_directory_recurse_inv n fs c x hx) _ fs q hq
    have hsubset : ∀ e ∈ q.fs, e ∈ fs := by
      intro e he
      rw [j1] at he
      exact (List.mem_filter.mp he).1
    have hkeepd : ∀ e ∈ fs, e.path = d → e ∈ q.fs := by
      intro e he hpd
      rw [j1]
      refine List.mem_filter.mpr ⟨he, ?_⟩
      cases hrm : removedBy q.trace e.path with
      | false => rfl
      | true =>
        obtain ⟨c, hc, _, hcp⟩ := removedBy_true _ _ hrm
        have := j2 c hc
        rw [hcp, hpd, not_under_self] at this
        exact absurd this (by simp)
    have hdirq : isDir q.fs d = true := by
      obtain ⟨e, he, hpd, hk⟩ := (isDir_iff _ _).mp hd
      exact (isDir_iff _ _).mpr ⟨e, hkeepd e he hpd, hpd, hk⟩
    have hempty : isEmptyDir '/' q.fs d = true := by
      simp only [isEmptyDir, List.all_eq_true, Option.isNone_iff_eq_none]
      intro e he
      cases hc : childName '/' d e.path with
      | none => rfl
      | some m =>
        have hr : (⟨m, dtypeOf e.kind⟩ : Dirent) ∈ childRecords '/' fs d :=
          (mem_childRecords '/' fs d _).mpr ⟨e, hsubset e he, hc, rfl⟩
        exact absurd ((childName_eq_some '/' d e.path m).mp hc).1 (hgone _ hr e he).1
    have hlock : isLocked q.fs d = false := by
      cases hlk : isLocked q.fs d with
      | false => rfl
      | true =>
        simp only [isLocked, List.any_eq_true, Bool.and_eq_true, beq_iff_eq] at hlk
        obtain ⟨e2, he2, hp2, hk2⟩ := hlk
        have := (unlockedUnder_iff '/' fs d).mp hl e2 (hsubset e2 he2)
          ((atOrUnder_iff _ _ _).mpr (Or.inl hp2))
        rw [this] at hk2
        exact absurd hk2 (by simp)
    have hrm : rmdir '/' q.fs d = (0, erasePath q.fs d) := by
      simp [rmdir, hdirq, hempty, hlock]
    refine ⟨⟨true, erasePath q.fs d, q.trace ++ [⟨NativeOp.rmdir, d, true⟩]⟩, ?_, rfl, ?_⟩
    · rw [remove_directory_recurse]
      simp [hopen, hskip, hq, hres, hrm]
    · intro e he
      have he' : e ∈ erasePath q.fs d := he
      obtain ⟨heq, hne⟩ := List.mem_filter.mp he'
      have hne' : e.path ≠ d := by simpa using hne
      cases hat : atOrUnder '/' d e.path with
      | false => rfl
      | true =>
        exfalso
        rcases (atOrUnder_iff _ _ _).mp hat with h | hund
        · exact hne' h
        · obtain ⟨e0, he0, m, hc, _, hat0⟩ :=
            top_child '/' fs d hp e.path.length e (hsubset e heq) (le_refl _) hund
          have hr : (⟨m, dtypeOf e0.kind⟩ : Dirent) ∈ childRecords '/' fs d :=
            (mem_childRecords '/' fs d _).mpr ⟨e0, he0, hc, rfl⟩
          have hp0 := ((childName_eq_some '/' d e0.path m).mp hc).1
          obtain ⟨g1, g2⟩ := hgone _ hr e heq
          rcases (atOrUnder_iff _ _ _).mp hat0 with h | hu0
          · exact g1 (h.trans hp0)
          · have hdir0 : isDir fs e0.path = true :=
              ancestor_isDir '/' fs d hp e.path.length e (hsubset e heq) (le_refl _) hund
                e0.path ((atOrUnder_iff _ _ _).mpr (Or.inr ((under_iff _ _ _).mpr ⟨m, hp0⟩))) hu0
            obtain ⟨e1, he1, hp1, hk1⟩ := (isDir_iff _ _).mp hdir0
            have hsame := same_entry fs hu e1 e0 he1 he0 hp1
            rw [hsame] at hk1
            have := g2 ((dtypeOf_dir e0.kind).mpr hk1)
            rw [← hp0, hat0] at this
            exact absurd this (by simp)

/-! ## Recursive remove, Linux branch: termination and the meaning of `true` -/

theorem filter_filter_length_le (fs : FS) (keep p : Ent → Bool) :
    ((fs.filter keep).filter p).length ≤ (fs.filter p).length := by
  rw [List.filter_filter]
  have : (fs.filter fun e => (p e && keep e)) = (fs.filter p).filter keep := by
    rw [List.filter_filter]
    apply List.filter_congr
    intro e _
    exact Bool.and_comm _ _
  rw [this]
  exact List.length_filter_le _ _

/-- The loop returns when the recursive call returns on every subtree with fewer than
`fuel` entries. -/
theorem removeLoop_returns (fuel : Nat) (d : Str)
    (hrec : ∀ (fs : FS) (c : Str), (fs.filter fun e => under '/' c e.path).length < fuel →
      ∃ r, remove_directory_recurse fuel fs c = some r) :
    ∀ (recs : List Dirent) (cur : FS),
      (∀ r ∈ recs, (cur.filter fun e => under '/' (d ++ '/' :: r.d_name) e.path).length < fuel) →
      ∃ q, removeLoop (remove_directory_recurse fuel) d recs cur = some q := by
  intro recs
  induction recs with
  | nil => intro cur _; exact ⟨_, rfl⟩
  | cons r recs ihl =>
    intro cur hcount
    have hrest : ∀ (keep : Ent → Bool), ∀ r2 ∈ recs,
        ((cur.filter keep).filter fun e => under '/' (d ++ '/' :: r2.d_name) e.path).length <
          fuel := fun keep r2 hr2 =>
      lt_of_le_of_lt (filter_filter_length_le cur keep _)
        (hcount r2 (List.mem_cons_of_mem _ hr2))
    rw [removeLoop]
    split
    · exact ihl cur (fun r2 hr2 => hcount r2 (List.mem_cons_of_mem _ hr2))
    · dsimp only
      split
      · obtain ⟨r0, hr0⟩ := hrec cur _ (hcount r (List.mem_cons_self _ _))
        obtain ⟨i1, _, _, _⟩ := remove_directory_recurse_inv fuel cur _ r0 hr0
        simp only [hr0]
        split
        · exact ⟨_, rfl⟩
        · obtain ⟨q1, hq1⟩ := ihl r0.fs (by rw [i1]; exact hrest _)
          rw [hq1]
          exact ⟨_, rfl⟩
      · rcases remove_cases '/' cur (d ++ '/' :: r.d_name) with ⟨h1, h2⟩ | ⟨h1, h2⟩
        · obtain ⟨q1, hq1⟩ := ihl (erasePath cur (d ++ '/' :: r.d_name)) (hrest _)
          simp only [h1, h2, ne_eq, not_true_eq_false, if_false, hq1]
          exact ⟨_, rfl⟩
        · simp only [h1, ne_eq, not_false_eq_true, if_true]
          exact ⟨_, rfl⟩

/-- `remove_directory_recurse` returns on every table, given more fuel than there are
entries beneath `directory`. -/
theorem remove_directory_recurse_returns :
    ∀ (fuel : Nat) (fs : FS) (d : Str), (fs.filter fun e => under '/' d e.path).length < fuel →
      ∃ r, remove_directory_recurse fuel fs d = some r := by
  intro fuel
  induction fuel with
  | zero => intro fs d h; omega
  | succ n ih =>
    intro fs d hn
    rw [remove_directory_recurse]
    cases ho : opendir fs d with
    | none => exact ⟨_, rfl⟩
    | some dir =>
      have hdir : dir = scanRecords '/' fs d := by
        unfold opendir at ho
        split at ho <;> simp at ho
        exact ho.symm
      have hskip : removeLoop (remove_directory_recurse n) d dir fs =
          removeLoop (remove_directory_recurse n) d (childRecords '/' fs d) fs := by
        simp [hdir, scanRecords, removeLoop]
      obtain ⟨q, hq⟩ := removeLoop_returns n d ih (childRecords '/' fs d) fs (by
        intro r hr
        obtain ⟨e, he, hc, _⟩ := (mem_childRecords '/' fs d r).mp hr
        have p1 := ((childName_eq_some '/' d e.path r.d_name).mp hc).1
        have hlt := filter_length_lt (fun x : Ent => under '/' (d ++ '/' :: r.d_name) x.path)
          (fun x : Ent => under '/' d x.path) e fs
          (fun a _ h => atOrUnder_child_under '/' d _ _ ((atOrUnder_iff _ _ _).mpr (Or.inr h)))
          he ((under_iff _ _ _).mpr ⟨_, p1⟩)
          (by show under '/' (d ++ '/' :: r.d_name) e.path = false
              rw [p1]; exact not_under_self '/' _)
        omega)
      simp only [hskip, hq]
      split
      · exact ⟨_, rfl⟩
      · split <;> exact ⟨_, rfl⟩

/-- When the loop ran to the end of the stream, the path of every record other than
`.` and `..` was removed by a successful call. -/
theorem removeLoop_done (recurse : FS → Str → Option RemoveRun) (d : Str)
    (hrec : ∀ fs c r, recurse fs c = some r → r.result = true → removedBy r.trace c = true) :
    ∀ (recs : List Dirent) (cur : FS) (q : RemoveRun),
      removeLoop recurse d recs cur = some q → q.result = true →
      ∀ r ∈ recs, isDotName r.d_name = false →
        removedBy q.trace (d ++ '/' :: r.d_name) = true := by
  intro recs
  induction recs with
  | nil => intro cur q _ _ r hr; simp at hr
  | cons r recs ihl =>
    intro cur q h hres r2 hr2 hdot2
    rw [removeLoop] at h
    split at h
    · rename_i hd
      rcases List.mem_cons.mp hr2 with rfl | hr2
      · exact absurd hd (isDotName_false _ hdot2)
      · exact ihl cur q h hres r2 hr2 hdot2
    · dsimp only at h
      split at h
      · cases hr : recurse cur (d ++ '/' :: r.d_name) with
        | none => simp [hr] at h
        | some r0 =>
          simp only [hr] at h
          split at h
          · simp only [Option.some.injEq] at h
            subst h
            simp at hres
          · rename_i hres0
            have hres0' : r0.result = true := by simpa using hres0
            cases hq : removeLoop recurse d recs r0.fs with
            | none => simp [hq] at h
            | some q1 =>
              simp only [hq, Option.map_some', Option.some.injEq] at h
              subst h
              show removedBy (r0.trace ++ q1.trace) _ = true
              rw [removedBy_append]
              rcases List.mem_cons.mp hr2 with rfl | hr2
              · rw [hrec _ _ r0 hr hres0']
                rfl
              · rw [ihl r0.fs q1 hq hres r2 hr2 hdot2]
                simp
      · rcases remove_cases '/' cur (d ++ '/' :: r.d_name) with ⟨h1, h2⟩ | ⟨h1, h2⟩
        · simp only [h1, ne_eq, not_true_eq_false, if_false, h2] at h
          cases hq : removeLoop recurse d recs (erasePath cur (d ++ '/' :: r.d_name)) with
          | none => simp [hq] at h
          | some q1 =>
            simp only [hq, Option.map_some', Option.some.injEq] at h
            subst h
            show removedBy (_ :: q1.trace) _ = true
            rw [removedBy_cons]
            rcases List.mem_cons.mp hr2 with rfl | hr2
            · simp
            · rw [ihl _ q1 hq hres r2 hr2 hdot2]
              simp
        · simp only [h1, ne_eq, not_false_eq_true, if_true, Option.some.injEq] at h
          subst h
          simp at hres

/-- When `remove_directory_recurse` returns `true`: the scan of `directory` was opened,
the last call is the successful `rmdir` of `directory`, the path of every record of
the scan other than `.` and `..` was removed by a successful call, and no direct
entry of `directory` is left. -/
theorem remove_directory_recurse_done :
    ∀ (fuel : Nat) (fs : FS) (d : Str) (r : RemoveRun),
      remove_directory_recurse fuel fs d = some r → r.result = true →
      isDir fs d = true ∧ r.trace.getLast? = some ⟨NativeOp.rmdir, d, true⟩ ∧
        removedBy r.trace d = true ∧
        (∀ x ∈ childRecords '/' fs d, isDotName x.d_name = false →
          removedBy r.trace (d ++ '/' :: x.d_name) = true) ∧
        isEmptyDir '/' r.fs d = true := by
  intro fuel
  induction fuel with
  | zero => intro fs d r h; simp [remove_directory_recurse] at h
  | succ n ih =>
    intro fs d r h hres
    rw [remove_directory_recurse] at h
    cases ho : opendir fs d with
    | none =>
      simp only [ho, Option.some.injEq] at h
      subst h
      simp at hres
    | some dir =>
      have hd : isDir fs d = true := by
        unfold opendir at ho
        split at ho
        · assumption
        · simp at ho
      have hdir : dir = scanRecords '/' fs d := by
        simp [opendir, hd] at ho
        exact ho.symm
      simp only [ho] at h
      cases hl : removeLoop (remove_directory_recurse n) d dir fs with
      | none => simp [hl] at h
      | some q =>
        simp only [hl] at h
        split at h
        · rename_i hq
          simp only [Option.some.injEq] at h
          subst h
          simp [hres] at hq
        · rename_i hq
          have hq' : q.result = true := by simpa using hq
          have hdone := removeLoop_done _ d
            (fun fs c x hx hxr => (ih fs c x hx hxr).2.2.1) dir fs q hl hq'
          rcases rmdir_cases '/' q.fs d with ⟨h1, h2, _, hemp, _⟩ | ⟨h1, h2⟩
          · simp only [h1, ne_eq, not_true_eq_false, if_false, h2, Option.some.injEq] at h
            subst h
            refine ⟨hd, by simp, ?_, ?_, ?_⟩
            · show removedBy (q.trace ++ _) d = true
              rw [removedBy_append]
              simp [removedBy]
            · intro x hx hdot
              show removedBy (q.trace ++ _) _ = true
              rw [removedBy_append, hdone x (by rw [hdir]; simp [scanRecords, hx]) hdot]
              rfl
            · show isEmptyDir '/' (erasePath q.fs d) d = true
              simp only [isEmptyDir, List.all_eq_true] at hemp ⊢
              intro e he
              exact hemp e (List.mem_filter.mp he).1
          · simp only [h1, ne_eq, not_false_eq_true, if_true, Option.some.injEq] at h
            subst h
            simp at hres

/-! ## Recursive remove, Linux branch: what is left after a failure -/

theorem pathExists_iff (fs : FS) (p : Str) :
    pathExists fs p = true ↔ ∃ e ∈ fs, e.path = p := by
  simp [pathExists]

theorem pathExists_kept (fs : FS) (tr : List Call) (p : Str) (h : pathExists fs p = true)
    (hn : removedBy tr p = false) :
    pathExists (fs.filter fun e => !removedBy tr e.path) p = true := by
  obtain ⟨e, he, hp⟩ := (pathExists_iff fs p).mp h
  exact (pathExists_iff _ p).mpr ⟨e, List.mem_filter.mpr ⟨he, by simp [hp, hn]⟩, hp⟩

/-- A path outside the scope of the calls of a trace was not removed by it. -/
theorem not_removedBy_of_scope (tr : List Call) (scope : Str → Bool) (p : Str)
    (hs : ∀ c ∈ tr, scope c.path = true) (hp : scope p = false) : removedBy tr p = false := by
  cases h : removedBy tr p with
  | false => rfl
  | true =>
    obtain ⟨c, hc, _, hcp⟩ := removedBy_true _ _ h
    have := hs c hc
    rw [hcp, hp] at this
    exact absurd this (by simp)

/-- In the loop over records with distinct names whose paths exist, the target of a
failed call still exists when the loop is left. -/
theorem removeLoop_failed_exists (fuel : Nat) (d : Str)
    (hrec : ∀ (fs : FS) (c : Str) (r : RemoveRun), (fs.map Ent.path).Nodup →
      remove_directory_recurse fuel fs c = some r →
      ∀ x ∈ r.trace, x.ok = false → pathExists r.fs x.path = true) :
    ∀ (recs : List Dirent) (cur : FS) (q : RemoveRun), (cur.map Ent.path).Nodup →
      (∀ r ∈ recs, '/' ∉ r.d_name ∧ pathExists cur (d ++ '/' :: r.d_name) = true) →
      (recs.map Dirent.d_name).Nodup →
      removeLoop (remove_directory_recurse fuel) d recs cur = some q →
      ∀ x ∈ q.trace, x.ok = false → pathExists q.fs x.path = true := by
  intro recs
  induction recs with
  | nil =>
    intro cur q _ _ _ h x hx
    simp only [removeLoop, Option.some.injEq] at h
    subst h
    simp at hx
  | cons r recs ihl =>
    intro cur q hu hex hnd h x hx hfail
    obtain ⟨k2, kex⟩ := hex r (List.mem_cons_self _ _)
    simp only [List.map_cons, List.nodup_cons] at hnd
    have hother : ∀ r2 ∈ recs,
        atOrUnder '/' (d ++ '/' :: r.d_name) (d ++ '/' :: r2.d_name) = false := by
      intro r2 hr2
      cases hc : atOrUnder '/' (d ++ '/' :: r.d_name) (d ++ '/' :: r2.d_name) with
      | false => rfl
      | true =>
        have k2' := (hex r2 (List.mem_cons_of_mem _ hr2)).1
        have := child_disjoint '/' d r.d_name r2.d_name _ k2 k2' hc
          ((atOrUnder_iff _ _ _).mpr (Or.inl rfl))
        exact absurd (this ▸ List.mem_map_of_mem Dirent.d_name hr2) hnd.1
    rw [removeLoop] at h
    split at h
    · exact ihl cur q hu (fun r2 hr2 => hex r2 (List.mem_cons_of_mem _ hr2)) hnd.2 h x hx hfail
    · dsimp only at h
      split at h
      · cases hr : remove_directory_recurse fuel cur (d ++ '/' :: r.d_name) with
        | none => simp [hr] at h
        | some r0 =>
          obtain ⟨i1, i2, _, i4⟩ := remove_directory_recurse_inv fuel cur _ r0 hr
          simp only [hr] at h
          split at h
          · simp only [Option.some.injEq] at h
            subst h
            exact hrec cur _ r0 hu hr x hx hfail
          · rename_i hres0
            have hres0' : r0.result = true := by simpa using hres0
            cases hq : removeLoop (remove_directory_recurse fuel) d recs r0.fs with
            | none => simp [hq] at h
            | some q1 =>
              simp only [hq, Option.map_some', Option.some.injEq] at h
              subst h
              have hex2 : ∀ r2 ∈ recs, '/' ∉ r2.d_name ∧
                  pathExists r0.fs (d ++ '/' :: r2.d_name) = true := by
                intro r2 hr2
                obtain ⟨a, b⟩ := hex r2 (List.mem_cons_of_mem _ hr2)
                refine ⟨a, ?_⟩
                rw [i1]
                exact pathExists_kept cur _ _ b
                  (not_removedBy_of_scope _ _ _ i2 (hother r2 hr2))
              have hu2 : (r0.fs.map Ent.path).Nodup := by
                rw [i1]
                exact nodup_filter_paths _ _ hu
              rcases List.mem_append.mp hx with hx | hx
              · have := i4 hres0' x hx
                rw [hfail] at this
                exact absurd this (by simp)
              · exact ihl r0.fs q1 hu2 hex2 hnd.2 hq x hx hfail
      · rcases remove_cases '/' cur (d ++ '/' :: r.d_name) with ⟨h1, h2⟩ | ⟨h1, h2⟩
        · simp only [h1, ne_eq, not_true_eq_false, if_false, h2] at h
          cases hq : removeLoop (remove_directory_recurse fuel) d recs
              (erasePath cur (d ++ '/' :: r.d_name)) with
          | none => simp [hq] at h
          | some q1 =>
            simp only [hq, Option.map_some', Option.some.injEq] at h
            subst h
            have hex2 : ∀ r2 ∈ recs, '/' ∉ r2.d_name ∧
                pathExists (erasePath cur (d ++ '/' :: r.d_name)) (d ++ '/' :: r2.d_name) =
                  true := by
              intro r2 hr2
              obtain ⟨a, b⟩ := hex r2 (List.mem_cons_of_mem _ hr2)
              refine ⟨a, ?_⟩
              obtain ⟨e, he, hp⟩ := (pathExists_iff _ _).mp b
              refine (pathExists_iff _ _).mpr ⟨e, List.mem_filter.mpr ⟨he, ?_⟩, hp⟩
              have hne : e.path ≠ d ++ '/' :: r.d_name := by
                intro h0
                have := hother r2 hr2
                rw [← hp, h0] at this
                simp [atOrUnder] at this
              simpa using hne
            rcases List.mem_cons.mp hx with rfl | hx
            · simp at hfail
            · exact ihl _ q1 (nodup_filter_paths _ _ hu) hex2 hnd.2 hq x hx hfail
        · simp only [h1, ne_eq, not_false_eq_true, if_true, h2, Option.some.injEq] at h
          subst h
          simp only [List.mem_singleton] at hx
          subst hx
          exact kex

/-- After a run on a table with unique paths, the target of a failed call still
exists; and when the run returned `false`, a directory `directory` is still there. -/
theorem remove_directory_recurse_failed_exists :
    ∀ (fuel : Nat) (fs : FS) (d : Str) (r : RemoveRun), (fs.map Ent.path).Nodup →
      remove_directory_recurse fuel fs d = some r →
      (∀ x ∈ r.trace, x.ok = false → pathExists r.fs x.path = true) ∧
      (r.result = false → isDir fs d = true → isDir r.fs d = true) := by
  intro fuel
  induction fuel with
  | zero => intro fs d r _ h; simp [remove_directory_recurse] at h
  | succ n ih =>
    intro fs d r hu h
    rw [remove_directory_recurse] at h
    cases ho : opendir fs d with
    | none =>
      simp only [ho, Option.some.injEq] at h
      subst h
      exact ⟨by simp, fun _ hd => hd⟩
    | some dir =>
      have hd : isDir fs d = true := by
        unfold opendir at ho
        split at ho
        · assumption
        · simp at ho
      have hdir : dir = scanRecords '/' fs d := by
        simp [opendir, hd] at ho
        exact ho.symm
      have hskip : removeLoop (remove_directory_recurse n) d dir fs =
          removeLoop (remove_directory_recurse n) d (childRecords '/' fs d) fs := by
        simp [hdir, scanRecords, removeLoop]
      simp only [ho, hskip] at h
      cases hl : removeLoop (remove_directory_recurse n) d (childRecords '/' fs d) fs with
      | none => simp [hl] at h
      | some q =>
        obtain ⟨j1, j2, _, j4⟩ := removeLoop_inv _ d
          (fun fs c x hx => remove_directory_recurse_inv n fs c x hx) _ fs q hl
        have hfe := removeLoop_failed_exists n d (fun fs c x hux hx => (ih fs c x hux hx).1)
          (childRecords '/' fs d) fs q hu (by
            intro x hx
            obtain ⟨e, he, hc, _⟩ := (mem_childRecords '/' fs d x).mp hx
            obtain ⟨p1, _, p3⟩ := (childName_eq_some '/' d e.path x.d_name).mp hc
            exact ⟨p3, (pathExists_iff _ _).mpr ⟨e, he, p1⟩⟩)
          (childRecords_names_nodup '/' d fs hu) hl
        have hkeep : removedBy q.trace d = false :=
          not_removedBy_of_scope _ _ _ j2 (not_under_self '/' d)
        have hdq : isDir q.fs d = true := by
          obtain ⟨e, he, hp, hk⟩ := (isDir_iff _ _).mp hd
          rw [j1]
          exact (isDir_iff _ _).mpr ⟨e, List.mem_filter.mpr ⟨he, by simp [hp, hkeep]⟩, hp, hk⟩
        simp only [hl] at h
        split at h
        · simp only [Option.some.injEq] at h
          subst h
          exact ⟨hfe, fun _ _ => hdq⟩
        · rename_i hres
          have hres1 : q.result = true := by simpa using hres
          have hqok : ∀ x ∈ q.trace, x.ok = false → False := by
            intro x hx hf
            have := j4 hres1 x hx
            rw [hf] at this
            exact absurd this (by simp)
          rcases rmdir_cases '/' q.fs d with ⟨h1, h2, _⟩ | ⟨h1, h2⟩
          · simp only [h1, ne_eq, not_true_eq_false, if_false, h2, Option.some.injEq] at h
            subst h
            refine ⟨?_, fun hf => by simp at hf⟩
            intro x hx hf
            rcases List.mem_append.mp hx with hx | hx
            · exact absurd hf (fun hf => hqok x hx hf)
            · simp only [List.mem_singleton] at hx
              subst hx
              simp at hf
          · simp only [h1, ne_eq, not_false_eq_true, if_true, h2, Option.some.injEq] at h
            subst h
            refine ⟨?_, fun _ _ => hdq⟩
            intro x hx hf
            rcases List.mem_append.mp hx with hx | hx
            · exact absurd hf (fun hf => hqok x hx hf)
            · simp only [List.mem_singleton] at hx
              subst hx
              exact isDir_pathExists _ _ hdq

/-! ## Recursive remove, Linux branch: the contract -/

theorem pathExists_removed (fs : FS) (tr : List Call) (p : Str) (h : removedBy tr p = true) :
    pathExists (fs.filter fun e => !removedBy tr e.path) p = false := by
  cases hp : pathExists (fs.filter fun e => !removedBy tr e.path) p with
  | false => rfl
  | true =>
    obtain ⟨e, he, hpe⟩ := (pathExists_iff _ _).mp hp
    have := (List.mem_filter.mp he).2
    rw [hpe, h] at this
    exact absurd this (by simp)

theorem trace_nonempty_isDir (fuel : Nat) (fs : FS) (d : Str) (r : RemoveRun)
    (h : remove_directory_recurse fuel fs d = some r) (hne : r.trace ≠ []) :
    isDir fs d = true := by
  cases fuel with
  | zero => simp [remove_directory_recurse] at h
  | succ n =>
    rw [remove_directory_recurse] at h
    cases ho : opendir fs d with
    | none =>
      simp only [ho, Option.some.injEq] at h
      subst h
      exact absurd rfl hne
    | some dir =>
      unfold opendir at ho
      split at ho
      · assumption
      · simp at ho

/-- C1: on the Linux build, for every table with unique paths and every directory `d`
of it whose tree is well formed (every entry beneath `d` is a direct entry, under a
name other than `.` and `..`, of a directory of the table) and holds no locked
entry, `remove_directory_recurse(d)` returns `true` (fuel: one more than the number
of entries beneath `d`); afterwards the table is the initial one without `d` and
everything beneath it, no path at or beneath `d` exists, and `path_is_exists(d)`
returns `false`. -/
theorem remove_directory_recurse_removes_tree (fs : FS) (d : Str)
    (hu : (fs.map Ent.path).Nodup) (hd : isDir fs d = true)
    (hp : parentClosed '/' fs d = true) (hl : unlockedUnder '/' fs d = true) :
    ∃ r, remove_directory_recurse ((fs.filter fun e => under '/' d e.path).length + 1) fs d =
        some r ∧
      r.result = true ∧
      r.fs = fs.filter (fun e => !atOrUnder '/' d e.path) ∧
      (∀ p, atOrUnder '/' d p = true → pathExists r.fs p = false) ∧
      path_is_exists r.fs d = false := by
  obtain ⟨r, hr, hres, hgone⟩ :=
    remove_directory_recurse_removes _ fs d hu hd hp hl (Nat.lt_succ_self _)
  obtain ⟨i1, i2, _, _⟩ := remove_directory_recurse_inv _ fs d r hr
  have hnone : ∀ p, atOrUnder '/' d p = true → pathExists r.fs p = false := by
    intro p hpa
    cases hex : pathExists r.fs p with
    | false => rfl
    | true =>
      obtain ⟨e, he, hpe⟩ := (pathExists_iff _ _).mp hex
      have := hgone e he
      rw [hpe, hpa] at this
      exact absurd this (by simp)
  refine ⟨r, hr, hres, ?_, hnone, ?_⟩
  · rw [i1]
    apply List.filter_congr
    intro e he
    cases hat : atOrUnder '/' d e.path with
    | false => rw [not_removedBy_of_scope _ _ _ i2 hat]
    | true =>
      cases hrm : removedBy r.trace e.path with
      | true => rfl
      | false =>
        have hmem : e ∈ r.fs := by
          rw [i1]
          exact List.mem_filter.mpr ⟨he, by simp [hrm]⟩
        have := hgone e hmem
        rw [hat] at this
        exact absurd this (by simp)
  · have hex := hnone d ((atOrUnder_iff _ _ _).mpr (Or.inl rfl))
    have hdir : isDir r.fs d = false := by
      cases h : isDir r.fs d with
      | false => rfl
      | true =>
        rw [isDir_pathExists _ _ h] at hex
        exact absurd hex (by simp)
    simp [path_is_exists, opendir, hdir]

/-- C1, witness: the sample tree `d` (a file, a subdirectory, a file in it) is removed
whole, and the file `e` beside it is all that is left. -/
theorem remove_directory_recurse_removes_tree_witness :
    ∃ r, remove_directory_recurse 4 sampleTree "d".toList = some r ∧
      r.result = true ∧
      r.fs = [⟨"e".toList, Kind.file, false⟩] ∧
      path_is_exists r.fs "d".toList = false := by
  obtain ⟨r, h1, h2, h3, _, h5⟩ := remove_directory_recurse_removes_tree sampleTree "d".toList
    (by decide) (by decide) (by decide) (by decide)
  exact ⟨r, h1, h2, h3.trans (by decide), h5⟩

/-- C2: on the Linux build, for every table with unique paths,
`remove_directory_recurse(d)` returns (fuel: one more than the number of entries
beneath `d`) and: if a native removal failed, the result is `false`; every call but
the last one succeeded, so no removal is issued after a failed one, at any level;
the target of the failed call and `d` itself still exist; the final table is the
initial one without the targets of the successful calls, so every entry not yet
removed is still there.  Conversely the result is `true` only if the scan of `d`
was opened, every call succeeded, the last call is the successful `rmdir` of `d`,
`d` no longer exists and has no direct entry left, and no entry of its scan other
than `.` and `..` exists any more. -/
theorem remove_directory_recurse_stops_at_failure (fs : FS) (d : Str)
    (hu : (fs.map Ent.path).Nodup) :
    ∃ r, remove_directory_recurse ((fs.filter fun e => under '/' d e.path).length + 1) fs d =
        some r ∧
      ((∃ x ∈ r.trace, x.ok = false) → r.result = false) ∧
      (∀ x ∈ r.trace.dropLast, x.ok = true) ∧
      (∀ x ∈ r.trace, x.ok = false → pathExists r.fs x.path = true ∧ isDir r.fs d = true) ∧
      r.fs = fs.filter (fun e => !removedBy r.trace e.path) ∧
      (r.result = true →
        isDir fs d = true ∧ (∀ x ∈ r.trace, x.ok = true) ∧
        r.trace.getLast? = some ⟨NativeOp.rmdir, d, true⟩ ∧
        pathExists r.fs d = false ∧ isEmptyDir '/' r.fs d = true ∧
        ∀ x ∈ childRecords '/' fs d, isDotName x.d_name = false →
          pathExists r.fs (d ++ '/' :: x.d_name) = false) := by
  obtain ⟨r, hr⟩ := remove_directory_recurse_returns _ fs d (Nat.lt_succ_self _)
  obtain ⟨i1, _, i3, i4⟩ := remove_directory_recurse_inv _ fs d r hr
  obtain ⟨f1, f2⟩ := remove_directory_recurse_failed_exists _ fs d r hu hr
  have hfalse : (∃ x ∈ r.trace, x.ok = false) → r.result = false := by
    rintro ⟨x, hx, hf⟩
    cases hres : r.result with
    | false => rfl
    | true =>
      have := i4 hres x hx
      rw [hf] at this
      exact absurd this (by simp)
  refine ⟨r, hr, hfalse, i3, ?_, i1, ?_⟩
  · intro x hx hf
    refine ⟨f1 x hx hf, f2 (hfalse ⟨x, hx, hf⟩) ?_⟩
    exact trace_nonempty_isDir _ fs d r hr (List.ne_nil_of_mem hx)
  · intro hres
    obtain ⟨g1, g2, g3, g4, g5⟩ := remove_directory_recurse_done _ fs d r hr hres
    refine ⟨g1, i4 hres, g2, ?_, g5, ?_⟩
    · rw [i1]
      exact pathExists_removed fs _ _ g3
    · intro x hx hdot
      rw [i1]
      exact pathExists_removed fs _ _ (g4 x hx hdot)

/-- C2, witness: in the tree `d` whose file `d/sub/y` is locked, `d/a` is removed, the
removal of `d/sub/y` fails, the call returns `false` with no further call, and `d`,
`d/sub`, `d/sub/y` and the unvisited `d/z` are still there. -/
theorem remove_directory_recurse_stops_at_failure_witness :
    ∃ r, remove_directory_recurse 5 lockedTree "d".toList = some r ∧
      r.result = false ∧
      r.trace = [⟨NativeOp.remove, "d/a".toList, true⟩,
        ⟨NativeOp.remove, "d/sub/y".toList, false⟩] ∧
      r.fs = [⟨"d".toList, Kind.dir, false⟩, ⟨"d/sub".toList, Kind.dir, false⟩,
        ⟨"d/sub/y".toList, Kind.file, true⟩, ⟨"d/z".toList, Kind.file, false⟩] ∧
      (∀ x ∈ r.trace.dropLast, x.ok = true) ∧
      (∀ x ∈ r.trace, x.ok = false → pathExists r.fs x.path = true ∧
        isDir r.fs "d".toList = true) := by
  obtain ⟨r, h1, _, h3, h4, _, _⟩ :=
    remove_directory_recurse_stops_at_failure lockedTree "d".toList (by decide)
  have hrun : remove_directory_recurse 5 lockedTree "d".toList =
      some ⟨false, [⟨"d".toList, Kind.dir, false⟩, ⟨"d/sub".toList, Kind.dir, false⟩,
        ⟨"d/sub/y".toList, Kind.file, true⟩, ⟨"d/z".toList, Kind.file, false⟩],
        [⟨NativeOp.remove, "d/a".toList, true⟩, ⟨NativeOp.remove, "d/sub/y".toList, false⟩]⟩ := by
    decide
  have hr := Option.some.inj (h1.symm.trans hrun)
  refine ⟨r, h1, ?_, ?_, ?_, h3, h4⟩ <;> rw [hr]

end kgr.filesystem
